import Mathlib

/-!
Verification of the minesweeper rules engine in `src/ui/board.tsx` and the
counter display in `src/ui/count-display.tsx`.

The state machine, mine placement, reveal cascade, chord reveal, flag cycle
and win/loss detection are embedded from `board.tsx`.  The `Cell` entity
lives in `src/ui/cell.tsx`, which is not part of the sources here; it is
modelled from the specification (data model and grid topology sections) and
clearly marked below.

JavaScript specifics embedded faithfully:
* `Math.floor(Math.random() * maxMines)` becomes a draw from an arbitrary
  stream `rand : Nat → Nat` reduced modulo `maxMines` (modulo `1` when
  `maxMines = 0`, matching `floor(x * 0) = 0`).
* the recursive `selectCell` and the `do/while` placement loop take explicit
  fuel and return `none` when it runs out; `throw` sites also return `none`.
* `cells.length - mines.length === getTotalRevealedCells(cells)` is compared
  over `Int`, as in JavaScript, not with truncated subtraction.
* the `switch (state.gameState)` in the reducer has no `break` between its
  cases, so an event unmatched in the current phase's inner `switch` falls
  through to the handlers of the later cases; the dispatcher below chains
  the case handlers in exactly that order.
-/

inductive CellStatus where
  | hidden
  | flagged
  | question
  | revealed
  | exploded
deriving DecidableEq, Repr

inductive GameState where
  | idle
  | active
  | won
  | lost
deriving DecidableEq, Repr

structure Board where
  rows : Nat
  columns : Nat
  mines : Nat
deriving DecidableEq, Repr

/-- Modelled from the spec: the `Cell` entity of `src/ui/cell.tsx` (absent from
`src/`): an index, the derived `adjacentMineCount`, the positional
`adjacentIndexMatrix` of length 8 with `null` (`none`) outside the grid, and a
status. -/
structure Cell where
  index : Nat
  adjacentMineCount : Nat
  adjacentIndexMatrix : List (Option Nat)
  status : CellStatus
deriving DecidableEq, Repr

/-- Modelled from the spec: one entry of the adjacency matrix — the
row-major index of the cell at offset `(dr, dc)` from `(r, c)`, `null`
(`none`) outside the grid. -/
def neighborEntry (board : Board) (r c dr dc : Int) : Option Nat :=
  let r2 : Int := r + dr
  let c2 : Int := c + dc
  if 0 ≤ r2 ∧ r2 < (board.rows : Int) ∧ 0 ≤ c2 ∧ c2 < (board.columns : Int) then
    some (r2 * board.columns + c2).toNat
  else
    none

/-- Modelled from the spec: grid topology `neighborsOf` (§4.1) for the `Cell`
constructor of `src/ui/cell.tsx`; direction order N, NE, E, SE, S, SW, W, NW,
row-major cell indices. -/
def neighborsOf (board : Board) (index : Nat) : List (Option Nat) :=
  let r : Int := (index / board.columns : Nat)
  let c : Int := (index % board.columns : Nat)
  [neighborEntry board r c (-1) 0, neighborEntry board r c (-1) 1,
   neighborEntry board r c 0 1, neighborEntry board r c 1 1,
   neighborEntry board r c 1 0, neighborEntry board r c 1 (-1),
   neighborEntry board r c 0 (-1), neighborEntry board r c (-1) (-1)]

/-- Modelled from the spec: `adjacentMineCount` is the count of non-null
entries of the adjacency matrix whose index is a mine (§3). -/
def countAdjacentMines (board : Board) (mines : List Nat) (index : Nat) : Nat :=
  ((neighborsOf board index).filterMap id).countP (fun j => decide (j ∈ mines))

/-- Modelled from the spec: `new Cell({index, board, mines, status})`. -/
def Cell.make (board : Board) (mines : List Nat) (index : Nat) (status : CellStatus) : Cell :=
  { index := index
    adjacentMineCount := countAdjacentMines board mines index
    adjacentIndexMatrix := neighborsOf board index
    status := status }

/-- Modelled from the spec: `new Cell(cell, {status})`, the
copy-with-status-override construction used by `board.tsx`. -/
def Cell.withStatus (cell : Cell) (status : CellStatus) : Cell :=
  { cell with status := status }

/-- One draw of `Math.floor(Math.random() * maxMines)` from the stream
`rand` at position `k`. -/
def randomCellIndex (rand : Nat → Nat) (maxMines k : Nat) : Nat :=
  rand k % max maxMines 1

/-- The `do { ... } while (minesToAssign.length)` loop of `initMines`
(board.tsx lines 534-547).  `remaining` is `minesToAssign.length`; the body
runs before the check, exactly like the source's `do/while`. -/
def initMinesGo (rand : Nat → Nat) (maxMines initialCellIndex : Nat) :
    Nat → Nat → List Nat → Nat → Option (List Nat)
  | 0, _, _, _ => none
  | fuel + 1, k, mines, remaining =>
    let r := randomCellIndex rand maxMines k
    let mines2 := if r ∈ mines ∨ initialCellIndex = r then mines else mines ++ [r]
    let remaining2 := if r ∈ mines ∨ initialCellIndex = r then remaining else remaining - 1
    if remaining2 = 0 then some mines2
    else initMinesGo rand maxMines initialCellIndex fuel (k + 1) mines2 remaining2

/-- `initMines({totalMines, maxMines, initialCellIndex})` (board.tsx 525-548). -/
def initMines (rand : Nat → Nat) (fuel totalMines maxMines initialCellIndex : Nat) :
    Option (List Nat) :=
  initMinesGo rand maxMines initialCellIndex fuel 0 [] totalMines

/-- `getCellCount` (board.tsx 559-561). -/
def getCellCount (board : Board) : Nat :=
  board.columns * board.rows

/-- `getMaxMines` (board.tsx 678-680). -/
def getMaxMines (cells : List Cell) : Nat :=
  cells.length - 1

/-- `createCells` (board.tsx 563-574); the optional `mines` argument is made
explicit (`[]` at the call sites that omit it). -/
def createCells (board : Board) (mines : List Nat) : List Cell :=
  (List.range (getCellCount board)).map (fun index => Cell.make board mines index .hidden)

/-- `resetCells` (board.tsx 576-578). -/
def resetCells (board : Board) : List Cell :=
  createCells board []

/-- `initCells` (board.tsx 580-582). -/
def initCells (board : Board) (mines : List Nat) : List Cell :=
  createCells board mines

/-- `addMinesToCells` (board.tsx 584-599): rebuild every cell against the
mine list, keeping each cell's current status (`cells[index]?.status ||
"hidden"`). -/
def addMinesToCells (cells : List Cell) (board : Board) (mines : List Nat) : List Cell :=
  (List.range (getCellCount board)).map
    (fun index => Cell.make board mines index (((cells[index]?).map Cell.status).getD .hidden))

/-- `flagCell` (board.tsx 601-605). -/
def flagCell (cell : Cell) : Cell :=
  cell.withStatus .flagged

/-- `toggleCellFlags` (board.tsx 607-616): flagged → question → hidden,
anything else → flagged. -/
def toggleCellFlags (cell : Cell) : Cell :=
  cell.withStatus
    (if cell.status = .flagged then .question
     else if cell.status = .question then .hidden
     else .flagged)

/-- `getTotalRevealedCells` (board.tsx 682-689). -/
def getTotalRevealedCells (cells : List Cell) : Nat :=
  cells.countP (fun cell => decide (cell.status = .revealed))

/-- The completion test of `selectCell` (board.tsx 651-652):
`cellsCopy.length - mines.length === getTotalRevealedCells(cellsCopy)`,
evaluated over the integers as in JavaScript. -/
def boardComplete (cells : List Cell) (mines : List Nat) : Bool :=
  decide ((cells.length : Int) - (mines.length : Int) = (getTotalRevealedCells cells : Int))

/-- The `[isComplete ? "won" : "active", cellsCopy]` verdict of `selectCell`
(board.tsx 654-656). -/
def verdictOf (cells : List Cell) (mines : List Nat) : GameState :=
  if boardComplete cells mines then .won else .active

/-- The `for (let index of mines)` loop of `selectCell`'s mine branch
(board.tsx 638-643): every mine cell becomes a copy of the clicked cell,
`exploded` at the clicked index and `revealed` elsewhere. -/
def revealMines (cell : Cell) (cellIndex : Nat) (mines : List Nat) (cells : List Cell) :
    List Cell :=
  mines.foldl
    (fun cs index =>
      cs.set index (cell.withStatus (if index = cellIndex then .exploded else .revealed)))
    cells

/-- The `for (let adjacentCellIndex of adjacentCells)` cascade loop of
`selectCell` (board.tsx 661-672), with the recursive reveal passed in as
`step`.  The guard `adjacentCell.adjacentMineCount >= 0` is always true when
the cell exists and false (skipping) on a missing index, which is how it is
rendered here. -/
def selectCellFold (step : Nat → List Cell → GameState → Option (GameState × List Cell)) :
    List Nat → GameState → List Cell → Option (GameState × List Cell)
  | [], gameState, cells => some (gameState, cells)
  | adjacentCellIndex :: rest, gameState, cells =>
    match cells[adjacentCellIndex]? with
    | none => selectCellFold step rest gameState cells
    | some _ =>
      match step adjacentCellIndex cells gameState with
      | none => none
      | some (g2, cs2) => selectCellFold step rest g2 cs2

/-- `selectCell` (board.tsx 618-676) with explicit fuel; `none` models the
invalid-index `throw` and fuel exhaustion.  The JS signature also carries
`board`, which the body never uses; it is omitted here. -/
def selectCell (mines : List Nat) : Nat → Nat → List Cell → GameState →
    Option (GameState × List Cell)
  | 0, _, _, _ => none
  | fuel + 1, cellIndex, cells, startingState =>
    match cells[cellIndex]? with
    | none => none
    | some cell =>
      if cell.status = .exploded ∨ cell.status = .revealed then
        some (startingState, cells)
      else if cellIndex ∈ mines then
        some (.lost, revealMines cell cellIndex mines cells)
      else
        let cells2 := cells.set cellIndex (cell.withStatus .revealed)
        if cell.adjacentMineCount = 0 then
          selectCellFold (selectCell mines fuel) (cell.adjacentIndexMatrix.filterMap id)
            (verdictOf cells2 mines) cells2
        else
          some (verdictOf cells2 mines, cells2)

/-- The `for (let cell of cellsToReveal)` loop of the chord handler
(board.tsx 150-160): sequential reveal, threading phase and cells, with no
short-circuit. -/
def chordFold (mines : List Nat) (fuel : Nat) : List Nat → GameState → List Cell →
    Option (GameState × List Cell)
  | [], gameState, cells => some (gameState, cells)
  | idx :: rest, gameState, cells =>
    match selectCell mines fuel idx cells gameState with
    | none => none
    | some (g2, cs2) => chordFold mines fuel rest g2 cs2

structure BoardState where
  gameState : GameState
  cells : List Cell
  mines : List Nat
  /-- the `initialized` flag of `BoardState` in board.tsx (the spec's
  `minesPlaced`). -/
  minesPlaced : Bool
deriving DecidableEq, Repr

inductive BoardEvent where
  | reset (board : Board)
  | revealCell (board : Board) (index : Nat)
  | revealAdjacentCells (board : Board) (index : Nat)
  | markCell (index : Nat)
  | markRemainingMines (board : Board)
deriving DecidableEq, Repr

/-- The inner `switch (event.type)` of `case "idle"` (board.tsx 44-88).
`none` means the inner switch matched no case, so control falls through to
the next `case` label; `some none` models a `throw` or fuel exhaustion. -/
def idleCase (rand : Nat → Nat) (fuel : Nat) (state : BoardState) :
    BoardEvent → Option (Option BoardState)
  | .revealCell board index =>
    some
      (match initMines rand fuel board.mines (getMaxMines state.cells) index with
      | none => none
      | some mines =>
        match selectCell mines fuel index (initCells board mines) state.gameState with
        | none => none
        | some (gameState, cells) =>
          some { state with
                  gameState := gameState
                  cells := cells
                  mines := mines
                  minesPlaced := true })
  | .markCell index =>
    some
      (match state.cells[index]? with
      | none => none
      | some cell =>
        some { state with
                gameState := .active
                cells := state.cells.set index (toggleCellFlags cell) })
  | _ => none

/-- The inner `switch (event.type)` of `case "active"` (board.tsx 89-187). -/
def activeCase (rand : Nat → Nat) (fuel : Nat) (state : BoardState) :
    BoardEvent → Option (Option BoardState)
  | .revealCell board index =>
    some
      (match
        (if state.minesPlaced then some (state.mines, state.cells)
         else
           (initMines rand fuel board.mines (getMaxMines state.cells) index).map
             (fun mines => (mines, addMinesToCells state.cells board mines)))
      with
      | none => none
      | some (mines, currentCells) =>
        match selectCell mines fuel index currentCells state.gameState with
        | none => none
        | some (gameState, cells) =>
          some { state with
                  gameState := gameState
                  cells := cells
                  mines := mines
                  minesPlaced := true })
  | .revealAdjacentCells _board index =>
    some
      (match state.cells[index]? with
      | none => none
      | some cell =>
        if cell.adjacentMineCount = 0 then some state
        else
          let neighbors := cell.adjacentIndexMatrix.filterMap id
          let markCount :=
            neighbors.countP (fun idx => decide (((state.cells[idx]?).map Cell.status) = some .flagged))
          let cellsToReveal :=
            neighbors.filter (fun idx => decide (((state.cells[idx]?).map Cell.status) = some .hidden))
          if cell.adjacentMineCount ≤ markCount then
            match chordFold state.mines fuel cellsToReveal state.gameState state.cells with
            | none => none
            | some (gameState, cells) =>
              some { state with gameState := gameState, cells := cells }
          else some state)
  | .markCell index =>
    some
      (match state.cells[index]? with
      | none => none
      | some cell =>
        some { state with cells := state.cells.set index (toggleCellFlags cell) })
  | _ => none

/-- The `cellsToMark` reduce of the `MARK_REMAINING_MINES` handler
(board.tsx 191-196): the indices whose cell is hidden or question. -/
def cellsToMark (cells : List Cell) : List Nat :=
  (List.range cells.length).filter
    (fun j =>
      decide (((cells[j]?).map Cell.status) = some .hidden ∨
        ((cells[j]?).map Cell.status) = some .question))

/-- The `for (let index of cellsToMark)` loop (board.tsx 203-211); `none`
models the invalid-index `throw`. -/
def markCells : List Nat → List Cell → Option (List Cell)
  | [], cells => some cells
  | index :: rest, cells =>
    match cells[index]? with
    | none => none
    | some cell => markCells rest (cells.set index (flagCell cell))

/-- The inner `switch (event.type)` of `case "won"` (board.tsx 188-218). -/
def wonCase (state : BoardState) : BoardEvent → Option (Option BoardState)
  | .markRemainingMines _board =>
    some
      (let toMark := cellsToMark state.cells
       if toMark.length < 1 then some state
       else (markCells toMark state.cells).map (fun cells => { state with cells := cells }))
  | _ => none

/-- `reducer` (board.tsx 33-221).  `RESET` is handled before the phase
switch; the phase cases are chained to model the fall-through of the
`switch (state.gameState)` (no `break` between its cases), and the trailing
`return state` is the final fallback.  The `lost` phase matches no case and
always returns the state unchanged. -/
def reducer (rand : Nat → Nat) (fuel : Nat) (state : BoardState) (event : BoardEvent) :
    Option BoardState :=
  match event with
  | .reset board =>
    some { state with gameState := .idle, cells := resetCells board, minesPlaced := false }
  | _ =>
    match state.gameState with
    | .idle =>
      match idleCase rand fuel state event with
      | some r => r
      | none =>
        match activeCase rand fuel state event with
        | some r => r
        | none =>
          match wonCase state event with
          | some r => r
          | none => some state
    | .active =>
      match activeCase rand fuel state event with
      | some r => r
      | none =>
        match wonCase state event with
        | some r => r
        | none => some state
    | .won =>
      match wonCase state event with
      | some r => r
      | none => some state
    | .lost => some state

/-- `getRemainingMineCount` (board.tsx 550-557). -/
def getRemainingMineCount (cells : List Cell) (totalMines : Nat) : Int :=
  (totalMines : Int) - (cells.countP (fun cell => decide (cell.status = .flagged)) : Int)

/-- `CountDisplay` (count-display.tsx 12-18): the rendered text is
`String(Math.max(Math.min(count, 999), -99))`. -/
def CountDisplay (count : Int) : String :=
  toString (max (min count 999) (-99))

/-! ### Basic observations on cells and snapshots -/

/-- The status stored at position `j`. -/
def statusAt (cells : List Cell) (j : Nat) : Option CellStatus :=
  (cells[j]?).map Cell.status

/-- Position `j` holds a cell that a reveal no longer touches. -/
abbrev DoneAt (cells : List Cell) (j : Nat) : Prop :=
  statusAt cells j = some .revealed ∨ statusAt cells j = some .exploded

lemma statusAt_set_self (cells : List Cell) (i : Nat) (v : Cell) (h : i < cells.length) :
    statusAt (cells.set i v) i = some v.status := by
  simp [statusAt, List.getElem?_set_self', List.getElem?_eq_getElem h]

lemma statusAt_set_ne (cells : List Cell) (i j : Nat) (v : Cell) (h : i ≠ j) :
    statusAt (cells.set i v) j = statusAt cells j := by
  simp [statusAt, List.getElem?_set_ne h]

lemma revealMines_cons (cell : Cell) (ci m : Nat) (ms : List Nat) (cells : List Cell) :
    revealMines cell ci (m :: ms) cells =
      revealMines cell ci ms
        (cells.set m (cell.withStatus (if m = ci then .exploded else .revealed))) := rfl

lemma revealMines_length (cell : Cell) (ci : Nat) :
    ∀ (ms : List Nat) (cells : List Cell),
      (revealMines cell ci ms cells).length = cells.length := by
  intro ms
  induction ms with
  | nil => intro cells; rfl
  | cons m ms ih =>
    intro cells
    rw [revealMines_cons, ih, List.length_set]

lemma revealMines_getElem? (cell : Cell) (ci : Nat) :
    ∀ (ms : List Nat) (cells : List Cell) (p : Nat),
      (revealMines cell ci ms cells)[p]? =
        if p ∈ ms ∧ p < cells.length then
          some (cell.withStatus (if p = ci then .exploded else .revealed))
        else cells[p]? := by
  intro ms
  induction ms with
  | nil => intro cells p; simp [revealMines]
  | cons m ms ih =>
    intro cells p
    rw [revealMines_cons, ih, List.length_set]
    by_cases hp : p ∈ ms ∧ p < cells.length
    · simp [hp, List.mem_cons.mpr (Or.inr hp.1)]
    · simp only [if_neg hp]
      by_cases pm : p = m
      · subst pm
        by_cases hlt : p < cells.length
        · simp [List.getElem?_set_self', List.getElem?_eq_getElem hlt, hlt,
            List.mem_cons]
        · rw [List.set_eq_of_length_le (Nat.le_of_not_lt hlt)]
          simp [hlt]
      · rw [List.getElem?_set_ne (fun h => pm h.symm)]
        have hno : ¬((p = m ∨ p ∈ ms) ∧ p < cells.length) := by
          rintro ⟨hmem, hlt⟩
          rcases hmem with h | h
          · exact pm h
          · exact hp ⟨h, hlt⟩
        simp only [List.mem_cons, if_neg hno]

/-- After the mine branch, a mine position in range is `exploded` at the
clicked index and `revealed` elsewhere; other positions are untouched. -/
lemma statusAt_revealMines (cell : Cell) (ci : Nat) (ms : List Nat) (cells : List Cell)
    (p : Nat) :
    statusAt (revealMines cell ci ms cells) p =
      if p ∈ ms ∧ p < cells.length then
        some (if p = ci then .exploded else .revealed)
      else statusAt cells p := by
  unfold statusAt
  rw [revealMines_getElem?]
  by_cases hp : p ∈ ms ∧ p < cells.length
  · simp only [if_pos hp, Option.map_some']
    by_cases pc : p = ci <;> simp [pc, Cell.withStatus]
  · simp [hp]

/-! ### The shape of every `selectCell` result -/

/-- Some mine cell is marked `exploded`. -/
def HasExplodedMine (mines : List Nat) (cells : List Cell) : Prop :=
  ∃ j, j ∈ mines ∧ statusAt cells j = some .exploded

lemma verdictOf_ne_lost (cells : List Cell) (mines : List Nat) :
    verdictOf cells mines ≠ .lost := by
  unfold verdictOf
  split <;> simp

lemma verdictOf_eq_won_iff (cells : List Cell) (mines : List Nat) :
    verdictOf cells mines = .won ↔ boardComplete cells mines = true := by
  unfold verdictOf
  split <;> simp_all

/-- Any property of (phase, cells) pairs preserved by the step function is
preserved by the cascade loop. -/
lemma selectCellFold_pres (step : Nat → List Cell → GameState → Option (GameState × List Cell))
    (P : GameState → List Cell → Prop)
    (hstep : ∀ i cs g g2 cs2, P g cs → step i cs g = some (g2, cs2) → P g2 cs2) :
    ∀ (l : List Nat) (g : GameState) (cs : List Cell) (g' : GameState) (cs' : List Cell),
      P g cs → selectCellFold step l g cs = some (g', cs') → P g' cs' := by
  intro l
  induction l with
  | nil =>
    intro g cs g' cs' hP h
    simp only [selectCellFold] at h
    cases h
    exact hP
  | cons idx rest ih =>
    intro g cs g' cs' hP h
    simp only [selectCellFold] at h
    cases hidx : cs[idx]? with
    | none =>
      rw [hidx] at h
      exact ih g cs g' cs' hP h
    | some c =>
      rw [hidx] at h
      cases hstep' : step idx cs g with
      | none => rw [hstep'] at h; cases h
      | some r =>
        rw [hstep'] at h
        obtain ⟨g2, cs2⟩ := r
        exact ih g2 cs2 g' cs' (hstep idx cs g g2 cs2 hP hstep') h

/-- Same for the chord loop. -/
lemma chordFold_pres (mines : List Nat) (fuel : Nat)
    (P : GameState → List Cell → Prop)
    (hstep : ∀ i cs g g2 cs2, P g cs → selectCell mines fuel i cs g = some (g2, cs2) → P g2 cs2) :
    ∀ (l : List Nat) (g : GameState) (cs : List Cell) (g' : GameState) (cs' : List Cell),
      P g cs → chordFold mines fuel l g cs = some (g', cs') → P g' cs' := by
  intro l
  induction l with
  | nil =>
    intro g cs g' cs' hP h
    simp only [chordFold] at h
    cases h
    exact hP
  | cons idx rest ih =>
    intro g cs g' cs' hP h
    simp only [chordFold] at h
    cases hstep' : selectCell mines fuel idx cs g with
    | none => rw [hstep'] at h; cases h
    | some r =>
      rw [hstep'] at h
      obtain ⟨g2, cs2⟩ := r
      exact ih g2 cs2 g' cs' (hstep idx cs g g2 cs2 hP hstep') h

/-- Master characterization: a successful `selectCell` either left phase and
cells untouched (target already revealed or exploded), or ended `lost` with
an exploded mine on the board, or returned exactly the completion verdict of
its final cells (board.tsx 651-656). -/
lemma selectCell_cases (mines : List Nat) :
    ∀ (fuel cellIndex : Nat) (cells : List Cell) (st st' : GameState) (cs' : List Cell),
      selectCell mines fuel cellIndex cells st = some (st', cs') →
      (st' = st ∧ cs' = cells) ∨
      (st' = .lost ∧ HasExplodedMine mines cs') ∨
      st' = verdictOf cs' mines := by
  intro fuel
  induction fuel with
  | zero => intro cellIndex cells st st' cs' h; cases h
  | succ fuel ih =>
    intro cellIndex cells st st' cs' h
    rw [selectCell] at h
    cases hcell : cells[cellIndex]? with
    | none => rw [hcell] at h; cases h
    | some cell =>
      rw [hcell] at h
      dsimp only at h
      by_cases hdone : cell.status = .exploded ∨ cell.status = .revealed
      · rw [if_pos hdone] at h
        cases h
        exact Or.inl ⟨rfl, rfl⟩
      · rw [if_neg hdone] at h
        by_cases hmine : cellIndex ∈ mines
        · rw [if_pos hmine] at h
          cases h
          refine Or.inr (Or.inl ⟨rfl, cellIndex, hmine, ?_⟩)
          have hlt : cellIndex < cells.length := by
            exact List.getElem?_eq_some_iff.mp hcell |>.1
          rw [statusAt_revealMines]
          simp [hmine, hlt]
        · rw [if_neg hmine] at h
          by_cases hzero : cell.adjacentMineCount = 0
          · rw [if_pos hzero] at h
            have hfold := selectCellFold_pres (selectCell mines fuel)
              (fun g cs => (g = .lost ∧ HasExplodedMine mines cs) ∨ g = verdictOf cs mines)
              (fun i cs g g2 cs2 hP hs => by
                rcases ih i cs g g2 cs2 hs with ⟨h1, h2⟩ | h2 | h2
                · subst h1; subst h2; exact hP
                · exact Or.inl h2
                · exact Or.inr h2)
              _ _ _ _ _ (Or.inr rfl) h
            rcases hfold with h2 | h2
            · exact Or.inr (Or.inl h2)
            · exact Or.inr (Or.inr h2)
          · rw [if_neg hzero] at h
            cases h
            exact Or.inr (Or.inr rfl)

/-! ### Mine placement -/

lemma randomCellIndex_lt (rand : Nat → Nat) (maxMines k : Nat) :
    randomCellIndex rand maxMines k < max maxMines 1 :=
  Nat.mod_lt _ (Nat.lt_of_lt_of_le Nat.zero_lt_one (le_max_right _ _))

/-- Accumulator invariant of the placement loop: when it halts with a
positive target, the produced list extends the accumulator by exactly
`remaining` fresh draws, stays duplicate-free, avoids the excluded index and
stays below the sampling bound. -/
lemma initMinesGo_spec (rand : Nat → Nat) (maxMines excluded : Nat) :
    ∀ (fuel k : Nat) (acc : List Nat) (rem : Nat) (mines : List Nat),
      1 ≤ rem → acc.Nodup → excluded ∉ acc → (∀ m ∈ acc, m < max maxMines 1) →
      initMinesGo rand maxMines excluded fuel k acc rem = some mines →
      mines.Nodup ∧ excluded ∉ mines ∧ (∀ m ∈ mines, m < max maxMines 1) ∧
        mines.length = acc.length + rem := by
  intro fuel
  induction fuel with
  | zero => intro k acc rem mines _ _ _ _ h; cases h
  | succ fuel ih =>
    intro k acc rem mines hrem hnd hex hlt h
    rw [initMinesGo] at h
    set r := randomCellIndex rand maxMines k with hr
    by_cases hcond : r ∈ acc ∨ excluded = r
    · rw [if_pos hcond, if_pos hcond] at h
      have hne : ¬rem = 0 := by omega
      rw [if_neg hne] at h
      exact ih (k + 1) acc rem mines hrem hnd hex hlt h
    · rw [if_neg hcond, if_neg hcond] at h
      push_neg at hcond
      have hnd2 : (acc ++ [r]).Nodup := by
        simp [List.nodup_append, hnd, hcond.1]
      have hex2 : excluded ∉ acc ++ [r] := by
        simp only [List.mem_append, List.mem_singleton]
        rintro (hmem | hmem)
        · exact hex hmem
        · exact hcond.2 hmem
      have hlt2 : ∀ m ∈ acc ++ [r], m < max maxMines 1 := by
        intro m hm
        rcases List.mem_append.mp hm with hm | hm
        · exact hlt m hm
        · rw [List.mem_singleton.mp hm]
          exact randomCellIndex_lt rand maxMines k
      by_cases hz : rem - 1 = 0
      · rw [if_pos hz] at h
        cases h
        refine ⟨hnd2, hex2, hlt2, ?_⟩
        simp only [List.length_append, List.length_singleton]
        omega
      · rw [if_neg hz] at h
        have := ih (k + 1) (acc ++ [r]) (rem - 1) mines (by omega) hnd2 hex2 hlt2 h
        refine ⟨this.1, this.2.1, this.2.2.1, ?_⟩
        rw [this.2.2.2]
        simp only [List.length_append, List.length_singleton]
        omega

/-- When `totalMines ≥ 1`, a successful placement has exactly `totalMines`
distinct mines, all below the sampling bound, excluding the first click. -/
lemma initMines_spec (rand : Nat → Nat) (fuel totalMines maxMines excluded : Nat)
    (mines : List Nat) (htm : 1 ≤ totalMines)
    (h : initMines rand fuel totalMines maxMines excluded = some mines) :
    mines.Nodup ∧ excluded ∉ mines ∧ (∀ m ∈ mines, m < max maxMines 1) ∧
      mines.length = totalMines := by
  have := initMinesGo_spec rand maxMines excluded fuel 0 [] totalMines mines htm
    List.nodup_nil (List.not_mem_nil excluded) (by intro m hm; cases hm) h
  simpa using this

lemma length_le_seven_of_nodup (acc : List Nat) (hnd : acc.Nodup)
    (hmem : ∀ m ∈ acc, m < 8 ∧ m ≠ 0) : acc.length ≤ 7 := by
  have hsub : acc.toFinset ⊆ (Finset.range 8).erase 0 := by
    intro m hm
    rw [List.mem_toFinset] at hm
    rcases hmem m hm with ⟨h1, h2⟩
    exact Finset.mem_erase.mpr ⟨h2, Finset.mem_range.mpr h1⟩
  have hcard : ((Finset.range 8).erase 0).card = 7 := by
    rw [Finset.card_erase_of_mem (Finset.mem_range.mpr (by omega))]
    simp
  calc acc.length = acc.toFinset.card := (List.toFinset_card_of_nodup hnd).symm
    _ ≤ ((Finset.range 8).erase 0).card := Finset.card_le_card hsub
    _ = 7 := hcard

/-- Pigeonhole: sampling from `[0, 8)` while excluding index `0` can collect
at most 7 distinct indices, so a target of `8 - acc.length` is never met and
the `do/while` loop never halts, whatever the random stream draws. -/
lemma initMinesGo_eight_none (rand : Nat → Nat) :
    ∀ (fuel k : Nat) (acc : List Nat),
      acc.Nodup → (∀ m ∈ acc, m < 8 ∧ m ≠ 0) →
      initMinesGo rand 8 0 fuel k acc (8 - acc.length) = none := by
  intro fuel
  induction fuel with
  | zero => intro k acc _ _; rfl
  | succ fuel ih =>
    intro k acc hnd hmem
    have hlen : acc.length ≤ 7 := length_le_seven_of_nodup acc hnd hmem
    rw [initMinesGo]
    set r := randomCellIndex rand 8 k with hr
    have hrlt : r < 8 := by
      have := randomCellIndex_lt rand 8 k
      simpa using this
    by_cases hcond : r ∈ acc ∨ 0 = r
    · rw [if_pos hcond, if_pos hcond]
      have hne : ¬(8 - acc.length = 0) := by omega
      rw [if_neg hne]
      exact ih (k + 1) acc hnd hmem
    · rw [if_neg hcond, if_neg hcond]
      push_neg at hcond
      have hnd2 : (acc ++ [r]).Nodup := by
        simp [List.nodup_append, hnd, hcond.1]
      have hmem2 : ∀ m ∈ acc ++ [r], m < 8 ∧ m ≠ 0 := by
        intro m hm
        rcases List.mem_append.mp hm with hm | hm
        · exact hmem m hm
        · rw [List.mem_singleton.mp hm]
          exact ⟨hrlt, fun h => hcond.2 h.symm⟩
      have hlen2 : (acc ++ [r]).length ≤ 7 := length_le_seven_of_nodup _ hnd2 hmem2
      have harith : 8 - acc.length - 1 = 8 - (acc ++ [r]).length := by
        simp only [List.length_append, List.length_singleton]
        omega
      have hne : ¬(8 - acc.length - 1 = 0) := by
        simp only [List.length_append, List.length_singleton] at hlen2
        omega
      rw [if_neg hne, harith]
      exact ih (k + 1) (acc ++ [r]) hnd2 hmem2

/-- Placing 8 mines from a 9-cell board (sampling bound `getMaxMines = 8`)
with first click at index 0 diverges for every stream and every fuel. -/
lemma initMines_eight_none (rand : Nat → Nat) (fuel : Nat) :
    initMines rand fuel 8 8 0 = none := by
  have := initMinesGo_eight_none rand fuel 0 [] List.nodup_nil (by intro m hm; cases hm)
  simpa using this

/-! ### Shapes of the reducer's case handlers -/

lemma idleCase_revealCell_shape (rand : Nat → Nat) (fuel : Nat) (state : BoardState)
    (board : Board) (index : Nat) (s' : BoardState)
    (h : idleCase rand fuel state (.revealCell board index) = some (some s')) :
    ∃ mines g cs,
      initMines rand fuel board.mines (getMaxMines state.cells) index = some mines ∧
      selectCell mines fuel index (initCells board mines) state.gameState = some (g, cs) ∧
      s' = { state with gameState := g, cells := cs, mines := mines, minesPlaced := true } := by
  simp only [idleCase, Option.some.injEq] at h
  cases hmines : initMines rand fuel board.mines (getMaxMines state.cells) index with
  | none => rw [hmines] at h; cases h
  | some mines =>
    rw [hmines] at h
    dsimp only at h
    cases hsel : selectCell mines fuel index (initCells board mines) state.gameState with
    | none => rw [hsel] at h; cases h
    | some r =>
      obtain ⟨g, cs⟩ := r
      rw [hsel] at h
      simp only [Option.some.injEq] at h
      exact ⟨mines, g, cs, rfl, hsel, h.symm⟩

lemma idleCase_markCell_shape (rand : Nat → Nat) (fuel : Nat) (state : BoardState)
    (index : Nat) (s' : BoardState)
    (h : idleCase rand fuel state (.markCell index) = some (some s')) :
    ∃ cell, state.cells[index]? = some cell ∧
      s' = { state with gameState := .active,
                        cells := state.cells.set index (toggleCellFlags cell) } := by
  simp only [idleCase, Option.some.injEq] at h
  cases hcell : state.cells[index]? with
  | none => rw [hcell] at h; cases h
  | some cell =>
    rw [hcell] at h
    simp only [Option.some.injEq] at h
    exact ⟨cell, rfl, h.symm⟩

lemma activeCase_revealCell_shape (rand : Nat → Nat) (fuel : Nat) (state : BoardState)
    (board : Board) (index : Nat) (s' : BoardState)
    (h : activeCase rand fuel state (.revealCell board index) = some (some s')) :
    ∃ mines cells0 g cs,
      selectCell mines fuel index cells0 state.gameState = some (g, cs) ∧
      s' = { state with gameState := g, cells := cs, mines := mines, minesPlaced := true } ∧
      (state.minesPlaced = true → mines = state.mines ∧ cells0 = state.cells) := by
  simp only [activeCase, Option.some.injEq] at h
  cases hmp : state.minesPlaced with
  | true =>
    rw [hmp] at h
    simp only [if_pos] at h
    cases hsel : selectCell state.mines fuel index state.cells state.gameState with
    | none => rw [hsel] at h; cases h
    | some r =>
      obtain ⟨g, cs⟩ := r
      rw [hsel] at h
      simp only [Option.some.injEq] at h
      exact ⟨state.mines, state.cells, g, cs, hsel, h.symm, fun _ => ⟨rfl, rfl⟩⟩
  | false =>
    rw [hmp] at h
    simp only [Bool.false_eq_true, if_neg, if_false] at h
    cases hmines : initMines rand fuel board.mines (getMaxMines state.cells) index with
    | none => rw [hmines] at h; cases h
    | some mines =>
      rw [hmines] at h
      simp only [Option.map_some'] at h
      cases hsel : selectCell mines fuel index (addMinesToCells state.cells board mines)
          state.gameState with
      | none => rw [hsel] at h; cases h
      | some r =>
        obtain ⟨g, cs⟩ := r
        rw [hsel] at h
        simp only [Option.some.injEq] at h
        exact ⟨mines, addMinesToCells state.cells board mines, g, cs, hsel, h.symm,
          fun hc => by simp [hmp] at hc⟩

lemma activeCase_chord_shape (rand : Nat → Nat) (fuel : Nat) (state : BoardState)
    (board : Board) (index : Nat) (s' : BoardState)
    (h : activeCase rand fuel state (.revealAdjacentCells board index) = some (some s')) :
    s' = state ∨
    ∃ (l : List Nat) (g : GameState) (cs : List Cell),
      chordFold state.mines fuel l state.gameState state.cells = some (g, cs) ∧
      s' = { state with gameState := g, cells := cs } := by
  simp only [activeCase, Option.some.injEq] at h
  cases hcell : state.cells[index]? with
  | none => rw [hcell] at h; cases h
  | some cell =>
    rw [hcell] at h
    dsimp only at h
    by_cases hz : cell.adjacentMineCount = 0
    · rw [if_pos hz] at h
      simp only [Option.some.injEq] at h
      exact Or.inl h.symm
    · rw [if_neg hz] at h
      by_cases hth : cell.adjacentMineCount ≤
          (cell.adjacentIndexMatrix.filterMap id).countP
            (fun idx => decide (((state.cells[idx]?).map Cell.status) = some .flagged))
      · rw [if_pos hth] at h
        set l := (cell.adjacentIndexMatrix.filterMap id).filter
          (fun idx => decide (((state.cells[idx]?).map Cell.status) = some .hidden)) with hl
        cases hch : chordFold state.mines fuel l state.gameState state.cells with
        | none => rw [hch] at h; cases h
        | some r =>
          obtain ⟨g, cs⟩ := r
          rw [hch] at h
          simp only [Option.some.injEq] at h
          exact Or.inr ⟨l, g, cs, hch, h.symm⟩
      · rw [if_neg hth] at h
        simp only [Option.some.injEq] at h
        exact Or.inl h.symm

lemma activeCase_markCell_shape (rand : Nat → Nat) (fuel : Nat) (state : BoardState)
    (index : Nat) (s' : BoardState)
    (h : activeCase rand fuel state (.markCell index) = some (some s')) :
    ∃ cell, state.cells[index]? = some cell ∧
      s' = { state with cells := state.cells.set index (toggleCellFlags cell) } := by
  simp only [activeCase, Option.some.injEq] at h
  cases hcell : state.cells[index]? with
  | none => rw [hcell] at h; cases h
  | some cell =>
    rw [hcell] at h
    simp only [Option.some.injEq] at h
    exact ⟨cell, rfl, h.symm⟩

lemma wonCase_markRemaining_shape (state : BoardState) (board : Board) (s' : BoardState)
    (h : wonCase state (.markRemainingMines board) = some (some s')) :
    s' = state ∨
    ∃ cells', markCells (cellsToMark state.cells) state.cells = some cells' ∧
      s' = { state with cells := cells' } := by
  simp only [wonCase, Option.some.injEq] at h
  by_cases he : (cellsToMark state.cells).length < 1
  · rw [if_pos he] at h
    simp only [Option.some.injEq] at h
    exact Or.inl h.symm
  · rw [if_neg he] at h
    cases hmk : markCells (cellsToMark state.cells) state.cells with
    | none => rw [hmk] at h; cases h
    | some cells' =>
      rw [hmk] at h
      simp only [Option.map_some', Option.some.injEq] at h
      exact Or.inr ⟨cells', rfl, h.symm⟩

/-! ### Dispatch facts: which inner switch matches which event -/

lemma idleCase_none_reset (rand : Nat → Nat) (fuel : Nat) (s : BoardState) (b : Board) :
    idleCase rand fuel s (.reset b) = none := rfl

lemma idleCase_none_chord (rand : Nat → Nat) (fuel : Nat) (s : BoardState) (b : Board)
    (i : Nat) : idleCase rand fuel s (.revealAdjacentCells b i) = none := rfl

lemma idleCase_none_markRemaining (rand : Nat → Nat) (fuel : Nat) (s : BoardState)
    (b : Board) : idleCase rand fuel s (.markRemainingMines b) = none := rfl

lemma activeCase_none_reset (rand : Nat → Nat) (fuel : Nat) (s : BoardState) (b : Board) :
    activeCase rand fuel s (.reset b) = none := rfl

lemma activeCase_none_markRemaining (rand : Nat → Nat) (fuel : Nat) (s : BoardState)
    (b : Board) : activeCase rand fuel s (.markRemainingMines b) = none := rfl

lemma wonCase_none_reveal (s : BoardState) (b : Board) (i : Nat) :
    wonCase s (.revealCell b i) = none := rfl

lemma wonCase_none_chord (s : BoardState) (b : Board) (i : Nat) :
    wonCase s (.revealAdjacentCells b i) = none := rfl

lemma wonCase_none_mark (s : BoardState) (i : Nat) :
    wonCase s (.markCell i) = none := rfl

lemma wonCase_none_reset (s : BoardState) (b : Board) :
    wonCase s (.reset b) = none := rfl

lemma reducer_reset (rand : Nat → Nat) (fuel : Nat) (s : BoardState) (b : Board) :
    reducer rand fuel s (.reset b) =
      some { s with gameState := .idle, cells := resetCells b, minesPlaced := false } := rfl

lemma reducer_lost (rand : Nat → Nat) (fuel : Nat) (s : BoardState) (e : BoardEvent)
    (hgs : s.gameState = .lost) (hnr : ∀ b, e ≠ .reset b) :
    reducer rand fuel s e = some s := by
  cases e with
  | reset b => exact absurd rfl (hnr b)
  | revealCell b i => simp only [reducer, hgs]
  | revealAdjacentCells b i => simp only [reducer, hgs]
  | markCell i => simp only [reducer, hgs]
  | markRemainingMines b => simp only [reducer, hgs]

/-- In phase `idle` or `active` the reducer handles `REVEAL_CELL` through the
matching inner switch. -/
lemma reducer_reveal_eq (rand : Nat → Nat) (fuel : Nat) (s : BoardState) (b : Board)
    (i : Nat) :
    (s.gameState = .idle →
      ∃ r, idleCase rand fuel s (.revealCell b i) = some r ∧
        reducer rand fuel s (.revealCell b i) = r) ∧
    (s.gameState = .active →
      ∃ r, activeCase rand fuel s (.revealCell b i) = some r ∧
        reducer rand fuel s (.revealCell b i) = r) := by
  constructor
  · intro hgs
    refine ⟨_, rfl, ?_⟩
    simp only [reducer, hgs, idleCase]
  · intro hgs
    refine ⟨_, rfl, ?_⟩
    simp only [reducer, hgs, activeCase]

/-- `REVEAL_ADJACENT_CELLS` falls through `idle` to the `active` handler, and
is handled there directly from `active`. -/
lemma reducer_chord_eq (rand : Nat → Nat) (fuel : Nat) (s : BoardState) (b : Board)
    (i : Nat) (hgs : s.gameState = .idle ∨ s.gameState = .active) :
    ∃ r, activeCase rand fuel s (.revealAdjacentCells b i) = some r ∧
      reducer rand fuel s (.revealAdjacentCells b i) = r := by
  refine ⟨_, rfl, ?_⟩
  rcases hgs with hgs | hgs
  · simp only [reducer, hgs, idleCase_none_chord, activeCase]
  · simp only [reducer, hgs, activeCase]

/-- `MARK_CELL` is handled by the inner switch of the current phase. -/
lemma reducer_mark_eq (rand : Nat → Nat) (fuel : Nat) (s : BoardState) (i : Nat) :
    (s.gameState = .idle →
      ∃ r, idleCase rand fuel s (.markCell i) = some r ∧
        reducer rand fuel s (.markCell i) = r) ∧
    (s.gameState = .active →
      ∃ r, activeCase rand fuel s (.markCell i) = some r ∧
        reducer rand fuel s (.markCell i) = r) := by
  constructor
  · intro hgs
    refine ⟨_, rfl, ?_⟩
    simp only [reducer, hgs, idleCase]
  · intro hgs
    refine ⟨_, rfl, ?_⟩
    simp only [reducer, hgs, activeCase]

/-- `MARK_REMAINING_MINES` falls through `idle` and `active` to the `won`
handler. -/
lemma reducer_markRemaining_eq (rand : Nat → Nat) (fuel : Nat) (s : BoardState) (b : Board)
    (hgs : s.gameState = .idle ∨ s.gameState = .active ∨ s.gameState = .won) :
    ∃ r, wonCase s (.markRemainingMines b) = some r ∧
      reducer rand fuel s (.markRemainingMines b) = r := by
  refine ⟨_, rfl, ?_⟩
  rcases hgs with hgs | hgs | hgs
  · simp only [reducer, hgs, idleCase_none_markRemaining, activeCase_none_markRemaining, wonCase]
  · simp only [reducer, hgs, activeCase_none_markRemaining, wonCase]
  · simp only [reducer, hgs, wonCase]

/-- In phase `won`, `REVEAL_CELL`, `REVEAL_ADJACENT_CELLS` and `MARK_CELL`
match no case and return the state unchanged. -/
lemma reducer_won_other (rand : Nat → Nat) (fuel : Nat) (s : BoardState) (e : BoardEvent)
    (hgs : s.gameState = .won)
    (hne : ∀ b, e ≠ .reset b) (hne2 : ∀ b, e ≠ .markRemainingMines b) :
    reducer rand fuel s e = some s := by
  cases e with
  | reset b => exact absurd rfl (hne b)
  | revealCell b i => simp only [reducer, hgs, wonCase_none_reveal]
  | revealAdjacentCells b i => simp only [reducer, hgs, wonCase_none_chord]
  | markCell i => simp only [reducer, hgs, wonCase_none_mark]
  | markRemainingMines b => exact absurd rfl (hne2 b)

/-! ### Reducer-level invariants -/

/-- Once mines are placed and the phase has left `idle`, no event — `RESET`
included, which carries the stale list over — ever changes the `mines`
field. -/
lemma reducer_mines_stable (rand : Nat → Nat) (fuel : Nat) (s : BoardState) (e : BoardEvent)
    (s' : BoardState) (hmp : s.minesPlaced = true) (hgs : s.gameState ≠ .idle)
    (h : reducer rand fuel s e = some s') : s'.mines = s.mines := by
  cases e with
  | reset b =>
    rw [reducer_reset] at h
    cases h
    rfl
  | revealCell b i =>
    cases hg : s.gameState with
    | idle => exact absurd hg hgs
    | active =>
      obtain ⟨r, hr, hred⟩ := (reducer_reveal_eq rand fuel s b i).2 hg
      rw [hred] at h
      have hac : activeCase rand fuel s (.revealCell b i) = some (some s') := by
        rw [hr, h]
      obtain ⟨mines, cells0, g, cs, _, hs', himp⟩ :=
        activeCase_revealCell_shape rand fuel s b i s' hac
      rw [hs', (himp hmp).1]
    | won =>
      rw [reducer_won_other rand fuel s _ hg (by intro b h; cases h) (by intro b h; cases h)]
        at h
      cases h
      rfl
    | lost =>
      rw [reducer_lost rand fuel s _ hg (by intro b h; cases h)] at h
      cases h
      rfl
  | revealAdjacentCells b i =>
    cases hg : s.gameState with
    | idle => exact absurd hg hgs
    | active =>
      obtain ⟨r, hr, hred⟩ := reducer_chord_eq rand fuel s b i (Or.inr hg)
      rw [hred] at h
      have hac : activeCase rand fuel s (.revealAdjacentCells b i) = some (some s') := by
        rw [hr, h]
      rcases activeCase_chord_shape rand fuel s b i s' hac with hs' | ⟨l, g, cs, _, hs'⟩
      · rw [hs']
      · rw [hs']
    | won =>
      rw [reducer_won_other rand fuel s _ hg (by intro b h; cases h) (by intro b h; cases h)]
        at h
      cases h
      rfl
    | lost =>
      rw [reducer_lost rand fuel s _ hg (by intro b h; cases h)] at h
      cases h
      rfl
  | markCell i =>
    cases hg : s.gameState with
    | idle => exact absurd hg hgs
    | active =>
      obtain ⟨r, hr, hred⟩ := (reducer_mark_eq rand fuel s i).2 hg
      rw [hred] at h
      have hac : activeCase rand fuel s (.markCell i) = some (some s') := by
        rw [hr, h]
      obtain ⟨cell, _, hs'⟩ := activeCase_markCell_shape rand fuel s i s' hac
      rw [hs']
    | won =>
      rw [reducer_won_other rand fuel s _ hg (by intro b h; cases h) (by intro b h; cases h)]
        at h
      cases h
      rfl
    | lost =>
      rw [reducer_lost rand fuel s _ hg (by intro b h; cases h)] at h
      cases h
      rfl
  | markRemainingMines b =>
    cases hg : s.gameState with
    | idle => exact absurd hg hgs
    | active =>
      obtain ⟨r, hr, hred⟩ := reducer_markRemaining_eq rand fuel s b (Or.inr (Or.inl hg))
      rw [hred] at h
      have hwc : wonCase s (.markRemainingMines b) = some (some s') := by
        rw [hr, h]
      rcases wonCase_markRemaining_shape s b s' hwc with hs' | ⟨cells', _, hs'⟩
      · rw [hs']
      · rw [hs']
    | won =>
      obtain ⟨r, hr, hred⟩ := reducer_markRemaining_eq rand fuel s b (Or.inr (Or.inr hg))
      rw [hred] at h
      have hwc : wonCase s (.markRemainingMines b) = some (some s') := by
        rw [hr, h]
      rcases wonCase_markRemaining_shape s b s' hwc with hs' | ⟨cells', _, hs'⟩
      · rw [hs']
      · rw [hs']
    | lost =>
      rw [reducer_lost rand fuel s _ hg (by intro b h; cases h)] at h
      cases h
      rfl

/-- Phase `lost` can only appear through the mine branch of `selectCell`:
any reducer step that ends `lost` either started `lost` or left an exploded
mine on the resulting board. -/
lemma reducer_lost_origin (rand : Nat → Nat) (fuel : Nat) (s : BoardState) (e : BoardEvent)
    (s' : BoardState) (h : reducer rand fuel s e = some s')
    (hlost : s'.gameState = .lost) :
    s.gameState = .lost ∨ HasExplodedMine s'.mines s'.cells := by
  cases e with
  | reset b =>
    rw [reducer_reset] at h
    cases h
    cases hlost
  | revealCell b i =>
    cases hg : s.gameState with
    | idle =>
      obtain ⟨r, hr, hred⟩ := (reducer_reveal_eq rand fuel s b i).1 hg
      rw [hred] at h
      have hic : idleCase rand fuel s (.revealCell b i) = some (some s') := by rw [hr, h]
      obtain ⟨mines, g, cs, hmines, hsel, hs'⟩ := idleCase_revealCell_shape rand fuel s b i s' hic
      have hglost : g = .lost := by rw [hs'] at hlost; exact hlost
      rcases selectCell_cases mines fuel i (initCells b mines) s.gameState g cs hsel with
        ⟨h1, _⟩ | ⟨_, hexp⟩ | h1
      · rw [hglost, hg] at h1; cases h1
      · rw [hs']; exact Or.inr hexp
      · rw [hglost] at h1; exact absurd h1.symm (verdictOf_ne_lost cs mines)
    | active =>
      obtain ⟨r, hr, hred⟩ := (reducer_reveal_eq rand fuel s b i).2 hg
      rw [hred] at h
      have hac : activeCase rand fuel s (.revealCell b i) = some (some s') := by rw [hr, h]
      obtain ⟨mines, cells0, g, cs, hsel, hs', _⟩ :=
        activeCase_revealCell_shape rand fuel s b i s' hac
      have hglost : g = .lost := by rw [hs'] at hlost; exact hlost
      rcases selectCell_cases mines fuel i cells0 s.gameState g cs hsel with
        ⟨h1, _⟩ | ⟨_, hexp⟩ | h1
      · rw [hglost, hg] at h1; cases h1
      · rw [hs']; exact Or.inr hexp
      · rw [hglost] at h1; exact absurd h1.symm (verdictOf_ne_lost cs mines)
    | won =>
      rw [reducer_won_other rand fuel s _ hg (by intro b h; cases h) (by intro b h; cases h)]
        at h
      cases h
      rw [hg] at hlost
      cases hlost
    | lost => exact Or.inl rfl
  | revealAdjacentCells b i =>
    cases hg : s.gameState with
    | idle =>
      obtain ⟨r, hr, hred⟩ := reducer_chord_eq rand fuel s b i (Or.inl hg)
      rw [hred] at h
      have hac : activeCase rand fuel s (.revealAdjacentCells b i) = some (some s') := by
        rw [hr, h]
      rcases activeCase_chord_shape rand fuel s b i s' hac with hs' | ⟨l, g, cs, hch, hs'⟩
      · rw [hs', hg] at hlost; cases hlost
      · have hglost : g = .lost := by rw [hs'] at hlost; exact hlost
        have := chordFold_pres s.mines fuel
          (fun g2 cs2 => g2 = .lost → s.gameState = .lost ∨ HasExplodedMine s.mines cs2)
          (fun j cs2 g2 g3 cs3 hP hst h3 => by
            rcases selectCell_cases s.mines fuel j cs2 g2 g3 cs3 hst with
              ⟨e1, e2⟩ | ⟨_, hexp⟩ | e1
            · rw [e2]; exact hP (e1 ▸ h3)
            · exact Or.inr hexp
            · rw [h3] at e1; exact absurd e1.symm (verdictOf_ne_lost cs3 s.mines))
          l s.gameState s.cells g cs (fun hl => Or.inl hl) hch
        rcases this hglost with h1 | h1
        · rw [hg] at h1; exact Or.inl h1
        · rw [hs']; exact Or.inr h1
    | active =>
      obtain ⟨r, hr, hred⟩ := reducer_chord_eq rand fuel s b i (Or.inr hg)
      rw [hred] at h
      have hac : activeCase rand fuel s (.revealAdjacentCells b i) = some (some s') := by
        rw [hr, h]
      rcases activeCase_chord_shape rand fuel s b i s' hac with hs' | ⟨l, g, cs, hch, hs'⟩
      · rw [hs', hg] at hlost; cases hlost
      · have hglost : g = .lost := by rw [hs'] at hlost; exact hlost
        have := chordFold_pres s.mines fuel
          (fun g2 cs2 => g2 = .lost → s.gameState = .lost ∨ HasExplodedMine s.mines cs2)
          (fun j cs2 g2 g3 cs3 hP hst h3 => by
            rcases selectCell_cases s.mines fuel j cs2 g2 g3 cs3 hst with
              ⟨e1, e2⟩ | ⟨_, hexp⟩ | e1
            · rw [e2]; exact hP (e1 ▸ h3)
            · exact Or.inr hexp
            · rw [h3] at e1; exact absurd e1.symm (verdictOf_ne_lost cs3 s.mines))
          l s.gameState s.cells g cs (fun hl => Or.inl hl) hch
        rcases this hglost with h1 | h1
        · rw [hg] at h1; exact Or.inl h1
        · rw [hs']; exact Or.inr h1
    | won =>
      rw [reducer_won_other rand fuel s _ hg (by intro b h; cases h) (by intro b h; cases h)]
        at h
      cases h
      rw [hg] at hlost
      cases hlost
    | lost => exact Or.inl rfl
  | markCell i =>
    cases hg : s.gameState with
    | idle =>
      obtain ⟨r, hr, hred⟩ := (reducer_mark_eq rand fuel s i).1 hg
      rw [hred] at h
      have hic : idleCase rand fuel s (.markCell i) = some (some s') := by rw [hr, h]
      obtain ⟨cell, _, hs'⟩ := idleCase_markCell_shape rand fuel s i s' hic
      rw [hs'] at hlost
      cases hlost
    | active =>
      obtain ⟨r, hr, hred⟩ := (reducer_mark_eq rand fuel s i).2 hg
      rw [hred] at h
      have hac : activeCase rand fuel s (.markCell i) = some (some s') := by rw [hr, h]
      obtain ⟨cell, _, hs'⟩ := activeCase_markCell_shape rand fuel s i s' hac
      rw [hs', hg] at hlost
      cases hlost
    | won =>
      rw [reducer_won_other rand fuel s _ hg (by intro b h; cases h) (by intro b h; cases h)]
        at h
      cases h
      rw [hg] at hlost
      cases hlost
    | lost => exact Or.inl rfl
  | markRemainingMines b =>
    cases hg : s.gameState with
    | idle =>
      obtain ⟨r, hr, hred⟩ := reducer_markRemaining_eq rand fuel s b (Or.inl hg)
      rw [hred] at h
      have hwc : wonCase s (.markRemainingMines b) = some (some s') := by rw [hr, h]
      rcases wonCase_markRemaining_shape s b s' hwc with hs' | ⟨cells', _, hs'⟩ <;>
        · rw [hs', hg] at hlost; cases hlost
    | active =>
      obtain ⟨r, hr, hred⟩ := reducer_markRemaining_eq rand fuel s b (Or.inr (Or.inl hg))
      rw [hred] at h
      have hwc : wonCase s (.markRemainingMines b) = some (some s') := by rw [hr, h]
      rcases wonCase_markRemaining_shape s b s' hwc with hs' | ⟨cells', _, hs'⟩ <;>
        · rw [hs', hg] at hlost; cases hlost
    | won =>
      obtain ⟨r, hr, hred⟩ := reducer_markRemaining_eq rand fuel s b (Or.inr (Or.inr hg))
      rw [hred] at h
      have hwc : wonCase s (.markRemainingMines b) = some (some s') := by rw [hr, h]
      rcases wonCase_markRemaining_shape s b s' hwc with hs' | ⟨cells', _, hs'⟩ <;>
        · rw [hs', hg] at hlost; cases hlost
    | lost => exact Or.inl rfl

/-- When a top-level reveal or chord from phase `idle`/`active` ends `won`,
the revealed count equals `cellCount - mineCount` (over the resulting
snapshot's own cells and mines). -/
lemma reducer_won_complete (rand : Nat → Nat) (fuel : Nat) (s : BoardState)
    (e : BoardEvent) (s' : BoardState) (b : Board) (i : Nat)
    (he : e = .revealCell b i ∨ e = .revealAdjacentCells b i)
    (hgs : s.gameState = .idle ∨ s.gameState = .active)
    (h : reducer rand fuel s e = some s') (hwon : s'.gameState = .won) :
    boardComplete s'.cells s'.mines = true := by
  rcases he with he | he
  · subst he
    rcases hgs with hg | hg
    · obtain ⟨r, hr, hred⟩ := (reducer_reveal_eq rand fuel s b i).1 hg
      rw [hred] at h
      have hic : idleCase rand fuel s (.revealCell b i) = some (some s') := by rw [hr, h]
      obtain ⟨mines, g, cs, _, hsel, hs'⟩ := idleCase_revealCell_shape rand fuel s b i s' hic
      have hgwon : g = .won := by rw [hs'] at hwon; exact hwon
      rcases selectCell_cases mines fuel i (initCells b mines) s.gameState g cs hsel with
        ⟨h1, _⟩ | ⟨h1, _⟩ | h1
      · rw [hgwon, hg] at h1; cases h1
      · rw [hgwon] at h1; cases h1
      · rw [hs']
        exact (verdictOf_eq_won_iff cs mines).mp (hgwon ▸ h1.symm)
    · obtain ⟨r, hr, hred⟩ := (reducer_reveal_eq rand fuel s b i).2 hg
      rw [hred] at h
      have hac : activeCase rand fuel s (.revealCell b i) = some (some s') := by rw [hr, h]
      obtain ⟨mines, cells0, g, cs, hsel, hs', _⟩ :=
        activeCase_revealCell_shape rand fuel s b i s' hac
      have hgwon : g = .won := by rw [hs'] at hwon; exact hwon
      rcases selectCell_cases mines fuel i cells0 s.gameState g cs hsel with
        ⟨h1, _⟩ | ⟨h1, _⟩ | h1
      · rw [hgwon, hg] at h1; cases h1
      · rw [hgwon] at h1; cases h1
      · rw [hs']
        exact (verdictOf_eq_won_iff cs mines).mp (hgwon ▸ h1.symm)
  · subst he
    obtain ⟨r, hr, hred⟩ := reducer_chord_eq rand fuel s b i hgs
    rw [hred] at h
    have hac : activeCase rand fuel s (.revealAdjacentCells b i) = some (some s') := by
      rw [hr, h]
    rcases activeCase_chord_shape rand fuel s b i s' hac with hs' | ⟨l, g, cs, hch, hs'⟩
    · rw [hs'] at hwon
      rcases hgs with hg | hg <;> · rw [hwon] at hg; cases hg
    · have hgwon : g = .won := by rw [hs'] at hwon; exact hwon
      have := chordFold_pres s.mines fuel
        (fun g2 cs2 => g2 = .won → boardComplete cs2 s.mines = true)
        (fun j cs2 g2 g3 cs3 hP hst h3 => by
          rcases selectCell_cases s.mines fuel j cs2 g2 g3 cs3 hst with
            ⟨e1, e2⟩ | ⟨e1, _⟩ | e1
          · rw [e2]; exact hP (e1 ▸ h3)
          · rw [h3] at e1; cases e1
          · exact (verdictOf_eq_won_iff cs3 s.mines).mp (h3 ▸ e1.symm))
        l s.gameState s.cells g cs
        (fun hl => by rcases hgs with hg | hg <;> · rw [hl] at hg; cases hg)
        hch
      rw [hs']
      exact this hgwon

/-! ### The three leaves of `selectCell` -/

lemma selectCell_noop (mines : List Nat) (fuel i : Nat) (cells : List Cell)
    (st : GameState) (cell : Cell) (hcell : cells[i]? = some cell)
    (hdone : cell.status = .exploded ∨ cell.status = .revealed) :
    selectCell mines (fuel + 1) i cells st = some (st, cells) := by
  rw [selectCell, hcell]
  dsimp only
  rw [if_pos hdone]

lemma selectCell_mine (mines : List Nat) (fuel i : Nat) (cells : List Cell)
    (st : GameState) (cell : Cell) (hcell : cells[i]? = some cell)
    (hdone : ¬(cell.status = .exploded ∨ cell.status = .revealed))
    (hmine : i ∈ mines) :
    selectCell mines (fuel + 1) i cells st =
      some (.lost, revealMines cell i mines cells) := by
  rw [selectCell, hcell]
  dsimp only
  rw [if_neg hdone, if_pos hmine]

lemma selectCell_reveal_nonzero (mines : List Nat) (fuel i : Nat) (cells : List Cell)
    (st : GameState) (cell : Cell) (hcell : cells[i]? = some cell)
    (hdone : ¬(cell.status = .exploded ∨ cell.status = .revealed))
    (hmine : i ∉ mines) (hz : cell.adjacentMineCount ≠ 0) :
    selectCell mines (fuel + 1) i cells st =
      some (verdictOf (cells.set i (cell.withStatus .revealed)) mines,
        cells.set i (cell.withStatus .revealed)) := by
  rw [selectCell, hcell]
  dsimp only
  rw [if_neg hdone, if_neg hmine, if_neg hz]

lemma selectCell_reveal_zero (mines : List Nat) (fuel i : Nat) (cells : List Cell)
    (st : GameState) (cell : Cell) (hcell : cells[i]? = some cell)
    (hdone : ¬(cell.status = .exploded ∨ cell.status = .revealed))
    (hmine : i ∉ mines) (hz : cell.adjacentMineCount = 0) :
    selectCell mines (fuel + 1) i cells st =
      selectCellFold (selectCell mines fuel) (cell.adjacentIndexMatrix.filterMap id)
        (verdictOf (cells.set i (cell.withStatus .revealed)) mines)
        (cells.set i (cell.withStatus .revealed)) := by
  rw [selectCell, hcell]
  dsimp only
  rw [if_neg hdone, if_neg hmine, if_pos hz]

/-! ### The auto-flagging of `MARK_REMAINING_MINES` -/

lemma cellsToMark_mem (cells : List Cell) (j : Nat) :
    j ∈ cellsToMark cells ↔
      j < cells.length ∧
        (statusAt cells j = some .hidden ∨ statusAt cells j = some .question) := by
  simp [cellsToMark, List.mem_filter, List.mem_range, statusAt]

lemma cellsToMark_nodup (cells : List Cell) : (cellsToMark cells).Nodup :=
  (List.nodup_range _).filter _

lemma markCells_spec : ∀ (l : List Nat) (cells : List Cell), l.Nodup →
    (∀ i ∈ l, i < cells.length) →
    ∃ cells', markCells l cells = some cells' ∧
      ∀ p, cells'[p]? = if p ∈ l then (cells[p]?).map flagCell else cells[p]? := by
  intro l
  induction l with
  | nil =>
    intro cells _ _
    exact ⟨cells, rfl, fun p => by simp⟩
  | cons i rest ih =>
    intro cells hnd hlt
    have hi : i < cells.length := hlt i (List.mem_cons_self i rest)
    obtain ⟨c, hc⟩ : ∃ c, cells[i]? = some c := ⟨cells[i], List.getElem?_eq_getElem hi⟩
    have hni : i ∉ rest := (List.nodup_cons.mp hnd).1
    have hndr : rest.Nodup := (List.nodup_cons.mp hnd).2
    have hltr : ∀ j ∈ rest, j < (cells.set i (flagCell c)).length := by
      intro j hj
      rw [List.length_set]
      exact hlt j (List.mem_cons_of_mem i hj)
    obtain ⟨cells', hmk, hchar⟩ := ih (cells.set i (flagCell c)) hndr hltr
    refine ⟨cells', ?_, ?_⟩
    · rw [markCells, hc]
      exact hmk
    · intro p
      rw [hchar p]
      by_cases hpi : p = i
      · subst hpi
        rw [if_neg hni, if_pos (List.mem_cons_self p rest)]
        rw [List.getElem?_set_self' ]
        simp [hc, List.getElem?_eq_getElem hi]
      · rw [List.getElem?_set_ne (fun hh => hpi hh.symm)]
        by_cases hpr : p ∈ rest
        · rw [if_pos hpr, if_pos (List.mem_cons_of_mem i hpr)]
        · rw [if_neg hpr, if_neg (by
            intro hmem
            rcases List.mem_cons.mp hmem with hmem | hmem
            · exact hpi hmem
            · exact hpr hmem)]

/-- Bound on every produced mine index, with no positivity assumption on the
target count (the `do/while` body runs at least once even for a zero
target). -/
lemma initMinesGo_bound (rand : Nat → Nat) (maxMines excluded : Nat) :
    ∀ (fuel k : Nat) (acc : List Nat) (rem : Nat) (mines : List Nat),
      (∀ m ∈ acc, m < max maxMines 1) →
      initMinesGo rand maxMines excluded fuel k acc rem = some mines →
      ∀ m ∈ mines, m < max maxMines 1 := by
  intro fuel
  induction fuel with
  | zero => intro k acc rem mines _ h; cases h
  | succ fuel ih =>
    intro k acc rem mines hlt h
    rw [initMinesGo] at h
    set r := randomCellIndex rand maxMines k with hr
    by_cases hcond : r ∈ acc ∨ excluded = r
    · rw [if_pos hcond, if_pos hcond] at h
      by_cases hz : rem = 0
      · rw [if_pos hz] at h
        cases h
        exact hlt
      · rw [if_neg hz] at h
        exact ih (k + 1) acc rem mines hlt h
    · rw [if_neg hcond, if_neg hcond] at h
      have hacc2 : ∀ m ∈ acc ++ [r], m < max maxMines 1 := by
        intro m hm
        rcases List.mem_append.mp hm with hm | hm
        · exact hlt m hm
        · rw [List.mem_singleton.mp hm]
          exact randomCellIndex_lt rand maxMines k
      by_cases hz : rem - 1 = 0
      · rw [if_pos hz] at h
        cases h
        exact hacc2
      · rw [if_neg hz] at h
        exact ih (k + 1) (acc ++ [r]) (rem - 1) mines hacc2 h

/-- The initial snapshot of the component: `initialState` with
`cells := createCells(board)` (board.tsx 10-15 and 372-377). -/
def initialBoardState (board : Board) : BoardState :=
  { gameState := .idle, cells := createCells board [], mines := [], minesPlaced := false }

/-! ### C1 -/

/-- C1 counterexample: on a 3×3 board with `mineCount = 0` (a configuration
the claim admits, `0 ≤ mineCount ≤ 8`), the first `Reveal(0)` of a fresh
round places a mine set of size 1, not 0: the `do/while` body of `initMines`
runs once before checking `minesToAssign.length` and accepts the first draw
(stream constantly 1). -/
theorem C1_counterexample :
    (reducer (fun _ => 1) 20 (initialBoardState ⟨3, 3, 0⟩)
        (.revealCell ⟨3, 3, 0⟩ 0)).map (fun s => s.mines.length) = some 1 ∧
    Board.mines ⟨3, 3, 0⟩ = 0 := by
  constructor
  · decide
  · rfl

/-- C1 (amended: `1 ≤ mineCount`): for every positive mine count, a mine set
produced at first placement has size exactly `mineCount`, omits the
first-revealed index, is duplicate-free; and once `minesPlaced` is set and
the phase has left `idle`, no later command of the round changes the
`mines` field. -/
theorem C1_mine_set_spec :
    (∀ (rand : Nat → Nat) (fuel totalMines maxMines initialCellIndex : Nat)
        (mines : List Nat),
      1 ≤ totalMines →
      initMines rand fuel totalMines maxMines initialCellIndex = some mines →
      mines.length = totalMines ∧ initialCellIndex ∉ mines ∧ mines.Nodup) ∧
    (∀ (rand : Nat → Nat) (fuel : Nat) (s : BoardState) (e : BoardEvent) (s' : BoardState),
      s.minesPlaced = true → s.gameState ≠ .idle →
      reducer rand fuel s e = some s' → s'.mines = s.mines) := by
  constructor
  · intro rand fuel totalMines maxMines initialCellIndex mines htm h
    obtain ⟨hnd, hex, _, hlen⟩ := initMines_spec rand fuel totalMines maxMines
      initialCellIndex mines htm h
    exact ⟨hlen, hex, hnd⟩
  · exact reducer_mines_stable

theorem C1_mine_set_spec_witness :
    (1 ≤ 1 ∧ ([1] : List Nat).length = 1 ∧ (0 : Nat) ∉ [1] ∧ ([1] : List Nat).Nodup) ∧
    BoardState.mines
        { gameState := .idle, cells := resetCells ⟨1, 1, 1⟩, mines := [5],
          minesPlaced := false } =
      BoardState.mines ⟨.active, [], [5], true⟩ :=
  ⟨⟨by decide,
    C1_mine_set_spec.1 (fun k => k) 5 1 8 0 [1] (by decide) (by decide)⟩,
   C1_mine_set_spec.2 (fun k => k) 5 ⟨.active, [], [5], true⟩ (.reset ⟨1, 1, 1⟩) _
     (by decide) (by decide) (by decide)⟩

/-! ### C2 -/

/-- C2: the code cannot realize the claim's contract.  On a 3×3 board with
`mineCount = 8 = cellCount - 1` — which the claim calls a valid, terminating
configuration — and first click at index 0, `initMines` samples from
`Math.floor(Math.random() * getMaxMines(cells))` with `getMaxMines = 8`,
i.e. from `[0, 8)`; excluding the clicked index leaves only 7 admissible
values, so the `do/while` loop never collects 8 distinct mines: placement
returns `none` for every random stream at every fuel (it diverges), and no
configuration-error path exists anywhere in the code. -/
theorem C2_placement_diverges :
    ∀ (rand : Nat → Nat) (fuel : Nat),
      initMines rand fuel 8 (getMaxMines (createCells ⟨3, 3, 8⟩ [])) 0 = none ∧
      reducer rand fuel (initialBoardState ⟨3, 3, 8⟩) (.revealCell ⟨3, 3, 8⟩ 0) = none := by
  intro rand fuel
  have h8 : getMaxMines (createCells ⟨3, 3, 8⟩ []) = 8 := rfl
  have h1 : initMines rand fuel 8 8 0 = none := initMines_eight_none rand fuel
  constructor
  · rw [h8]
    exact h1
  · have hstep : reducer rand fuel (initialBoardState ⟨3, 3, 8⟩) (.revealCell ⟨3, 3, 8⟩ 0) =
        (match initMines rand fuel 8 8 0 with
        | none => none
        | some mines =>
          match selectCell mines fuel 0 (initCells ⟨3, 3, 8⟩ mines) GameState.idle with
          | none => none
          | some (g, cs) =>
            some { gameState := g, cells := cs, mines := mines, minesPlaced := true }) := rfl
    rw [hstep, h1]

/-! ### C7 -/

/-- C7 counterexample: `RESET` does carry the previous round's mine list
over — the reducer spreads the old state and only replaces `gameState`,
`cells` and `initialized`, so `mines` stays `[4]`, refuting "the snapshot
carries no mine set over from the previous round". -/
theorem C7_counterexample :
    (reducer (fun k => k) 3 ⟨.lost, createCells ⟨3, 3, 1⟩ [4], [4], true⟩
        (.reset ⟨3, 3, 1⟩)).map (fun s => s.mines) = some [4] ∧
    ([4] : List Nat) ≠ [] := by
  constructor
  · decide
  · decide

/-- C7 (amended): `RESET` rebuilds the cells all `hidden`, sets the phase to
`idle` and clears `minesPlaced`, but keeps the stale `mines` list of the
previous round in the snapshot (it is unused until the next first reveal
re-places mines). -/
theorem C7_reset_amended :
    ∀ (rand : Nat → Nat) (fuel : Nat) (s : BoardState) (b : Board),
      reducer rand fuel s (.reset b) =
        some { s with gameState := .idle, cells := resetCells b, minesPlaced := false } ∧
      BoardState.mines { s with gameState := .idle, cells := resetCells b, minesPlaced := false } = s.mines ∧
      (∀ cell ∈ resetCells b, cell.status = .hidden) ∧
      (resetCells b).length = getCellCount b := by
  intro rand fuel s b
  refine ⟨reducer_reset rand fuel s b, rfl, ?_, ?_⟩
  · intro cell hcell
    simp only [resetCells, createCells, List.mem_map] at hcell
    obtain ⟨i, _, hi⟩ := hcell
    rw [← hi]
    rfl
  · simp [resetCells, createCells]

/-! ### C8 -/

/-- C8: every mine index produced by placement is strictly below
`getMaxMines cells = cells.length - 1`, because each draw is
`Math.floor(Math.random() * getMaxMines(cells))`; in particular the cell
with the largest index `cellCount - 1` is never a mine. -/
theorem C8_mine_upper_bound :
    ∀ (rand : Nat → Nat) (fuel totalMines initialCellIndex : Nat) (cells : List Cell)
      (mines : List Nat),
      2 ≤ cells.length →
      initMines rand fuel totalMines (getMaxMines cells) initialCellIndex = some mines →
      ∀ m ∈ mines, m < cells.length - 1 := by
  intro rand fuel totalMines initialCellIndex cells mines hlen h m hm
  have hmax : max (getMaxMines cells) 1 = cells.length - 1 := by
    unfold getMaxMines
    omega
  have := initMinesGo_bound rand (getMaxMines cells) initialCellIndex fuel 0 [] totalMines
    mines (by intro m hm; cases hm) h m hm
  rw [hmax] at this
  exact this

theorem C8_mine_upper_bound_witness :
    2 ≤ (createCells ⟨3, 3, 1⟩ []).length ∧
    ∀ m ∈ [1], m < (createCells ⟨3, 3, 1⟩ []).length - 1 :=
  ⟨by decide,
   C8_mine_upper_bound (fun k => k) 5 1 0 (createCells ⟨3, 3, 1⟩ []) [1]
     (by decide) (by decide)⟩

/-! ### C10 -/

/-- C10: the rendered counter text is the decimal string of the count
clamped to `[-99, 999]`: unchanged in range, `999` above, `-99` below. -/
theorem C10_count_display_clamped :
    ∀ count : Int,
      (-99 ≤ count → count ≤ 999 → CountDisplay count = toString count) ∧
      (999 ≤ count → CountDisplay count = toString (999 : Int)) ∧
      (count ≤ -99 → CountDisplay count = toString (-99 : Int)) := by
  intro count
  refine ⟨fun h1 h2 => ?_, fun h => ?_, fun h => ?_⟩ <;>
    · unfold CountDisplay
      congr 1
      omega

theorem C10_count_display_clamped_witness :
    ((-99 : Int) ≤ 5 ∧ (5 : Int) ≤ 999 ∧ CountDisplay 5 = toString (5 : Int)) ∧
    ((999 : Int) ≤ 1234 ∧ CountDisplay 1234 = toString (999 : Int)) ∧
    ((-150 : Int) ≤ -99 ∧ CountDisplay (-150) = toString (-99 : Int)) :=
  ⟨⟨by decide, by decide, (C10_count_display_clamped 5).1 (by decide) (by decide)⟩,
   ⟨by decide, (C10_count_display_clamped 1234).2.1 (by decide)⟩,
   ⟨by decide, (C10_count_display_clamped (-150)).2.2 (by decide)⟩⟩

/-! ### C3 -/

/-- C3: revealing a not-yet-revealed, not-exploded cell that is in the mine
set marks the clicked cell `exploded`, marks every other mine cell
`revealed`, leaves non-mine cells untouched and returns phase `lost`; and
`lost` never arises any other way — a `selectCell` or reducer step ending
`lost` either started `lost` or left an exploded mine on the board. -/
theorem C3_mine_reveal :
    (∀ (mines : List Nat) (fuel i : Nat) (cells : List Cell) (st : GameState) (cell : Cell),
      cells[i]? = some cell →
      ¬(cell.status = .exploded ∨ cell.status = .revealed) →
      i ∈ mines → (∀ j ∈ mines, j < cells.length) →
      selectCell mines (fuel + 1) i cells st =
          some (.lost, revealMines cell i mines cells) ∧
        statusAt (revealMines cell i mines cells) i = some .exploded ∧
        (∀ j ∈ mines, j ≠ i →
          statusAt (revealMines cell i mines cells) j = some .revealed) ∧
        (∀ j, j ∉ mines → (revealMines cell i mines cells)[j]? = cells[j]?)) ∧
    (∀ (mines : List Nat) (fuel i : Nat) (cells : List Cell) (st st' : GameState)
        (cs' : List Cell),
      selectCell mines fuel i cells st = some (st', cs') → st' = .lost →
      st = .lost ∨ HasExplodedMine mines cs') ∧
    (∀ (rand : Nat → Nat) (fuel : Nat) (s : BoardState) (e : BoardEvent) (s' : BoardState),
      reducer rand fuel s e = some s' → s'.gameState = .lost →
      s.gameState = .lost ∨ HasExplodedMine s'.mines s'.cells) := by
  refine ⟨?_, ?_, reducer_lost_origin⟩
  · intro mines fuel i cells st cell hcell hdone hmine hrange
    have hlt : i < cells.length := List.getElem?_eq_some_iff.mp hcell |>.1
    refine ⟨selectCell_mine mines fuel i cells st cell hcell hdone hmine, ?_, ?_, ?_⟩
    · rw [statusAt_revealMines]
      simp [hmine, hlt]
    · intro j hj hne
      rw [statusAt_revealMines]
      simp [hj, hrange j hj, hne]
    · intro j hj
      rw [revealMines_getElem?]
      simp [hj]
  · intro mines fuel i cells st st' cs' h hlost
    rcases selectCell_cases mines fuel i cells st st' cs' h with ⟨h1, _⟩ | ⟨_, hexp⟩ | h1
    · exact Or.inl (hlost ▸ h1.symm)
    · exact Or.inr hexp
    · rw [hlost] at h1
      exact absurd h1.symm (verdictOf_ne_lost cs' mines)

theorem C3_mine_reveal_witness :
    (4 ∈ ([4] : List Nat)) ∧
    selectCell [4] 4 4 (createCells ⟨3, 3, 1⟩ [4]) .active =
      some (.lost,
        revealMines (Cell.make ⟨3, 3, 1⟩ [4] 4 .hidden) 4 [4] (createCells ⟨3, 3, 1⟩ [4])) ∧
    statusAt (revealMines (Cell.make ⟨3, 3, 1⟩ [4] 4 .hidden) 4 [4]
        (createCells ⟨3, 3, 1⟩ [4])) 4 = some .exploded := by
  have h := C3_mine_reveal.1 [4] 3 4 (createCells ⟨3, 3, 1⟩ [4]) .active
    (Cell.make ⟨3, 3, 1⟩ [4] 4 .hidden) (by decide) (by decide) (by decide) (by decide)
  exact ⟨by decide, h.1, h.2.1⟩

/-! ### C4 -/

/-- C4 counterexample: a reachable snapshot (fresh 3×3 board with
`mineCount = 2`, stream drawing 0 then 1, `Reveal(6)` cascading over the
bottom rows, then `Reveal(0)` hitting mine 0) ends with phase `lost` while
the number of `revealed` cells equals `cellCount - mineCount` (the loss
branch marks the other mine `revealed`, bringing the count to 7 = 9 - 2), so
`phase == won` is not equivalent to the count condition. -/
theorem C4_counterexample :
    ((reducer (fun k => k) 12 (initialBoardState ⟨3, 3, 2⟩)
          (.revealCell ⟨3, 3, 2⟩ 6)).bind
        (fun s1 => reducer (fun k => k) 12 s1 (.revealCell ⟨3, 3, 2⟩ 0))).map
      (fun s => (s.gameState, boardComplete s.cells s.mines)) = some (.lost, true) := by
  decide

/-- C4 (amended): after a reveal, `phase = won` implies the revealed count
equals `cellCount - mineCount` whenever the starting phase was not already
`won`; and the full equivalence holds for any reveal that actually changed
the snapshot and did not end `lost`.  In `lost` results the backward
direction fails, because the loss branch marks the remaining mines
`revealed` and can bring the count up to `cellCount - mineCount`. -/
theorem C4_win_iff_amended :
    (∀ (mines : List Nat) (fuel i : Nat) (cells : List Cell) (st st' : GameState)
        (cs' : List Cell),
      selectCell mines fuel i cells st = some (st', cs') →
      (st' = .won → st = .won ∨ boardComplete cs' mines = true) ∧
      (¬(st' = st ∧ cs' = cells) → st' ≠ .lost →
        (st' = .won ↔ boardComplete cs' mines = true))) ∧
    (∀ (rand : Nat → Nat) (fuel : Nat) (s : BoardState) (e : BoardEvent) (s' : BoardState)
        (b : Board) (i : Nat),
      (e = .revealCell b i ∨ e = .revealAdjacentCells b i) →
      (s.gameState = .idle ∨ s.gameState = .active) →
      reducer rand fuel s e = some s' → s'.gameState = .won →
      boardComplete s'.cells s'.mines = true) := by
  refine ⟨?_, reducer_won_complete⟩
  intro mines fuel i cells st st' cs' h
  constructor
  · intro hwon
    rcases selectCell_cases mines fuel i cells st st' cs' h with ⟨h1, _⟩ | ⟨h1, _⟩ | h1
    · exact Or.inl (hwon ▸ h1.symm)
    · rw [h1] at hwon; cases hwon
    · exact Or.inr ((verdictOf_eq_won_iff cs' mines).mp (hwon ▸ h1.symm))
  · intro hnno hnlost
    rcases selectCell_cases mines fuel i cells st st' cs' h with h1 | ⟨h1, _⟩ | h1
    · exact absurd h1 hnno
    · exact absurd h1 hnlost
    · rw [h1]
      exact verdictOf_eq_won_iff cs' mines

theorem C4_win_iff_amended_witness :
    selectCell [] 2 0 (createCells ⟨1, 1, 0⟩ []) .active =
      some (.won,
        (createCells ⟨1, 1, 0⟩ []).set 0
          ((Cell.make ⟨1, 1, 0⟩ [] 0 .hidden).withStatus .revealed)) ∧
    (GameState.active = .won ∨
      boardComplete
        ((createCells ⟨1, 1, 0⟩ []).set 0
          ((Cell.make ⟨1, 1, 0⟩ [] 0 .hidden).withStatus .revealed)) [] = true) :=
  ⟨by decide,
   (C4_win_iff_amended.1 [] 2 0 (createCells ⟨1, 1, 0⟩ []) .active .won
      ((createCells ⟨1, 1, 0⟩ []).set 0
        ((Cell.make ⟨1, 1, 0⟩ [] 0 .hidden).withStatus .revealed))
      (by decide)).1 (by decide)⟩

/-! ### C5 -/

/-- The concrete chord board of the C5 counterexample: 3×3, mines at 0 and
5, cell 3 revealed (its `adjacentMineCount` is 1), a wrong flag on cell 1,
everything else hidden. -/
def chordBoardCells : List Cell :=
  (List.range 9).map (fun j =>
    Cell.make ⟨3, 3, 2⟩ [0, 5] j
      (if j = 3 then .revealed else if j = 1 then .flagged else .hidden))

/-- C5 counterexample: chording cell 3 (threshold met by the wrong flag)
reveals its hidden neighbors in order 0, 4, 7, 6; revealing mine 0 yields
`lost`, but the loop keeps going and the reveal of cell 4 recomputes the
phase, so the command ends `active` even though cell 0 is `exploded` — the
early `lost` is overwritten, not short-circuited. -/
theorem C5_counterexample :
    (reducer (fun k => k) 12 ⟨.active, chordBoardCells, [0, 5], true⟩
        (.revealAdjacentCells ⟨3, 3, 2⟩ 3)).map
      (fun s => (s.gameState, statusAt s.cells 0)) = some (.active, some .exploded) := by
  decide

/-- C5 (amended): the chord loop threads phase and cells sequentially but
does not short-circuit on `lost`: a later step that finds its target
already revealed or exploded is a no-op and keeps `lost`, while a later
step that reveals a hidden non-mine cell with nonzero adjacency recomputes
the phase from the board and returns `active` or `won`, overwriting the
earlier `lost`. -/
theorem C5_chord_lost_overwritten :
    (∀ (mines : List Nat) (fuel i : Nat) (cells : List Cell) (st' : GameState)
        (cs' : List Cell) (cell : Cell),
      selectCell mines (fuel + 1) i cells .lost = some (st', cs') →
      cells[i]? = some cell → cell.status = .hidden → i ∉ mines →
      cell.adjacentMineCount ≠ 0 → st' ≠ .lost) ∧
    (∀ (mines : List Nat) (fuel i : Nat) (cells : List Cell) (st' : GameState)
        (cs' : List Cell) (cell : Cell),
      selectCell mines (fuel + 1) i cells .lost = some (st', cs') →
      cells[i]? = some cell → (cell.status = .exploded ∨ cell.status = .revealed) →
      st' = .lost ∧ cs' = cells) := by
  constructor
  · intro mines fuel i cells st' cs' cell h hcell hst hmine hz
    have hdone : ¬(cell.status = .exploded ∨ cell.status = .revealed) := by
      rw [hst]
      rintro (hc | hc) <;> cases hc
    rw [selectCell_reveal_nonzero mines fuel i cells .lost cell hcell hdone hmine hz] at h
    have := (Option.some.injEq _ _).mp h
    rw [← (Prod.mk.injEq _ _ _ _).mp this |>.1]
    exact verdictOf_ne_lost _ mines
  · intro mines fuel i cells st' cs' cell h hcell hdone
    rw [selectCell_noop mines fuel i cells .lost cell hcell hdone] at h
    have := (Option.some.injEq _ _).mp h
    exact ⟨((Prod.mk.injEq _ _ _ _).mp this).1.symm, ((Prod.mk.injEq _ _ _ _).mp this).2.symm⟩

/-- Cells for the C5 witness: a 2×2 board with a mine at 0, cell 3 hidden
(first part) or revealed (second part). -/
def chordWitnessCells : List Cell := createCells ⟨2, 2, 1⟩ [0]

def chordWitnessCellsRevealed : List Cell :=
  (List.range 4).map (fun j =>
    Cell.make ⟨2, 2, 1⟩ [0] j (if j = 3 then .revealed else .hidden))

theorem C5_chord_lost_overwritten_witness :
    (GameState.active ≠ GameState.lost) ∧
    (GameState.lost = GameState.lost ∧ chordWitnessCellsRevealed = chordWitnessCellsRevealed) :=
  ⟨C5_chord_lost_overwritten.1 [0] 1 3 chordWitnessCells .active
     (chordWitnessCells.set 3 ((Cell.make ⟨2, 2, 1⟩ [0] 3 .hidden).withStatus .revealed))
     (Cell.make ⟨2, 2, 1⟩ [0] 3 .hidden)
     (by decide) (by decide) (by decide) (by decide) (by decide),
   C5_chord_lost_overwritten.2 [0] 1 3 chordWitnessCellsRevealed .lost
     chordWitnessCellsRevealed (Cell.make ⟨2, 2, 1⟩ [0] 3 .revealed)
     (by decide) (by decide) (Or.inr (by decide))⟩

/-! ### C9 -/

/-- C9: from phase `idle` or `active`, `MARK_REMAINING_MINES` falls through
the unmatched inner switches to the `won` handler (the reducer's phase
cases have no `break`), flags every `hidden` or `question` cell, and leaves
the phase and mines unchanged. -/
theorem C9_markRemaining_fallthrough :
    ∀ (rand : Nat → Nat) (fuel : Nat) (s : BoardState) (b : Board),
      s.gameState = .idle ∨ s.gameState = .active →
      ∃ s', reducer rand fuel s (.markRemainingMines b) = some s' ∧
        s'.gameState = s.gameState ∧ s'.mines = s.mines ∧
        ∀ j, (statusAt s.cells j = some .hidden ∨ statusAt s.cells j = some .question) →
          statusAt s'.cells j = some .flagged := by
  intro rand fuel s b hgs
  obtain ⟨r, hr, hred⟩ := reducer_markRemaining_eq rand fuel s b
    (by rcases hgs with h | h
        · exact Or.inl h
        · exact Or.inr (Or.inl h))
  by_cases hlen : (cellsToMark s.cells).length < 1
  · have hwc : wonCase s (.markRemainingMines b) = some (some s) := by
      simp only [wonCase, if_pos hlen]
    rw [hwc] at hr
    have hrs : r = some s := by injection hr with h2; exact h2.symm
    refine ⟨s, by rw [hred, hrs], rfl, rfl, ?_⟩
    intro j hj
    have hmem : j ∈ cellsToMark s.cells := by
      rcases hj with hj | hj
      · obtain ⟨c, hc, _⟩ := Option.map_eq_some'.mp hj
        exact (cellsToMark_mem s.cells j).mpr
          ⟨(List.getElem?_eq_some_iff.mp hc).1, Or.inl hj⟩
      · obtain ⟨c, hc, _⟩ := Option.map_eq_some'.mp hj
        exact (cellsToMark_mem s.cells j).mpr
          ⟨(List.getElem?_eq_some_iff.mp hc).1, Or.inr hj⟩
    have : (cellsToMark s.cells).length = 0 := by omega
    rw [List.length_eq_zero.mp this] at hmem
    cases hmem
  · obtain ⟨cells', hmk, hchar⟩ := markCells_spec (cellsToMark s.cells) s.cells
      (cellsToMark_nodup s.cells)
      (fun i hi => ((cellsToMark_mem s.cells i).mp hi).1)
    have hwc : wonCase s (.markRemainingMines b) =
        some (some { s with cells := cells' }) := by
      simp only [wonCase, if_neg hlen, hmk, Option.map_some']
    rw [hwc] at hr
    have hrs : r = some { s with cells := cells' } := by
      injection hr with h2
      exact h2.symm
    refine ⟨{ s with cells := cells' }, by rw [hred, hrs], rfl, rfl, ?_⟩
    intro j hj
    have hsome : ∃ c, s.cells[j]? = some c := by
      rcases hj with hj | hj <;>
        · obtain ⟨c, hc, _⟩ := Option.map_eq_some'.mp hj
          exact ⟨c, hc⟩
    obtain ⟨c, hc⟩ := hsome
    have hmem : j ∈ cellsToMark s.cells :=
      (cellsToMark_mem s.cells j).mpr ⟨(List.getElem?_eq_some_iff.mp hc).1, hj⟩
    show statusAt cells' j = some .flagged
    unfold statusAt
    rw [hchar j, if_pos hmem, hc]
    rfl

theorem C9_markRemaining_fallthrough_witness :
    (BoardState.gameState (initialBoardState ⟨2, 2, 1⟩) = .idle ∨
      BoardState.gameState (initialBoardState ⟨2, 2, 1⟩) = .active) ∧
    ∃ s', reducer (fun k => k) 5 (initialBoardState ⟨2, 2, 1⟩)
        (.markRemainingMines ⟨2, 2, 1⟩) = some s' ∧
      s'.gameState = BoardState.gameState (initialBoardState ⟨2, 2, 1⟩) ∧
      s'.mines = BoardState.mines (initialBoardState ⟨2, 2, 1⟩) ∧
      ∀ j, (statusAt (BoardState.cells (initialBoardState ⟨2, 2, 1⟩)) j = some .hidden ∨
          statusAt (BoardState.cells (initialBoardState ⟨2, 2, 1⟩)) j = some .question) →
        statusAt s'.cells j = some .flagged :=
  ⟨Or.inl (by decide),
   C9_markRemaining_fallthrough (fun k => k) 5 (initialBoardState ⟨2, 2, 1⟩) ⟨2, 2, 1⟩
     (Or.inl (by decide))⟩

/-! ### The zero-adjacency region and its closure -/

/-- The non-null neighbor indices of a cell (`adjacentIndexMatrix.filter(idx
=> idx != null)`). -/
def adjacentList (board : Board) (i : Nat) : List Nat :=
  (neighborsOf board i).filterMap id

lemma neighborEntry_lt (board : Board) (r c dr dc : Int) (j : Nat)
    (h : neighborEntry board r c dr dc = some j) : j < getCellCount board := by
  unfold neighborEntry at h
  dsimp only at h
  split at h
  · rename_i hcond
    obtain ⟨h1, h2, h3, h4⟩ := hcond
    injection h with hj
    have hlt : (r + dr) * board.columns + (c + dc) < (board.columns : Int) * board.rows := by
      calc (r + dr) * board.columns + (c + dc)
          < (r + dr) * board.columns + board.columns := by omega
        _ = (r + dr + 1) * board.columns := by ring
        _ ≤ (board.rows : Int) * board.columns := by
            have hc0 : (0 : Int) ≤ (board.columns : Int) := Int.natCast_nonneg _
            have : r + dr + 1 ≤ (board.rows : Int) := by omega
            exact mul_le_mul_of_nonneg_right this hc0
        _ = (board.columns : Int) * board.rows := by ring
    have hnn : (0 : Int) ≤ (r + dr) * board.columns + (c + dc) := by
      have hc0 : (0 : Int) ≤ (board.columns : Int) := Int.natCast_nonneg _
      have : (0 : Int) ≤ (r + dr) * board.columns := mul_nonneg h1 hc0
      omega
    rw [← hj]
    have : (((r + dr) * board.columns + (c + dc)).toNat : Int) <
        ((getCellCount board : Nat) : Int) := by
      rw [Int.toNat_of_nonneg hnn]
      unfold getCellCount
      push_cast
      exact hlt
    exact_mod_cast this
  · cases h

lemma adjacentList_lt (board : Board) (i j : Nat) (h : j ∈ adjacentList board i) :
    j < getCellCount board := by
  unfold adjacentList at h
  rw [List.mem_filterMap] at h
  obtain ⟨o, ho, hid⟩ := h
  rw [id_eq] at hid
  subst hid
  unfold neighborsOf at ho
  simp only [List.mem_cons, List.not_mem_nil, or_false] at ho
  rcases ho with h | h | h | h | h | h | h | h <;>
    exact neighborEntry_lt board _ _ _ _ j h.symm

/-- `j` is connected to `start` through cells with zero adjacent mines. -/
inductive ZeroReach (board : Board) (mines : List Nat) (start : Nat) : Nat → Prop where
  | base : countAdjacentMines board mines start = 0 → ZeroReach board mines start start
  | step {j k : Nat} : ZeroReach board mines start j → k ∈ adjacentList board j →
      countAdjacentMines board mines k = 0 → ZeroReach board mines start k

/-- The zero-adjacency region of `start` together with its bordering cells. -/
def InClosure (board : Board) (mines : List Nat) (start j : Nat) : Prop :=
  ZeroReach board mines start j ∨
    ∃ z, ZeroReach board mines start z ∧ j ∈ adjacentList board z

lemma ZeroReach.count_eq_zero {board : Board} {mines : List Nat} {start j : Nat}
    (h : ZeroReach board mines start j) : countAdjacentMines board mines j = 0 := by
  cases h with
  | base h0 => exact h0
  | step _ _ h0 => exact h0

lemma ZeroReach.reach_lt {board : Board} {mines : List Nat} {start j : Nat}
    (hs : start < getCellCount board) (h : ZeroReach board mines start j) :
    j < getCellCount board := by
  cases h with
  | base _ => exact hs
  | step _ hmem _ => exact adjacentList_lt board _ _ hmem

lemma InClosure.closure_lt {board : Board} {mines : List Nat} {start j : Nat}
    (hs : start < getCellCount board) (h : InClosure board mines start j) :
    j < getCellCount board := by
  rcases h with h | ⟨z, _, hmem⟩
  · exact h.reach_lt hs
  · exact adjacentList_lt board _ _ hmem

lemma not_mine_of_adjacent_zero (board : Board) (mines : List Nat) (z k : Nat)
    (h0 : countAdjacentMines board mines z = 0) (hmem : k ∈ adjacentList board z) :
    k ∉ mines := by
  unfold countAdjacentMines at h0
  intro hk
  have := List.countP_eq_zero.mp h0 k hmem
  simp [hk] at this

lemma InClosure.not_mine {board : Board} {mines : List Nat} {start j : Nat}
    (hs : start ∉ mines) (h : InClosure board mines start j) : j ∉ mines := by
  rcases h with h | ⟨z, hz, hmem⟩
  · cases h with
    | base _ => exact hs
    | step hr hmem h0 => exact not_mine_of_adjacent_zero board mines _ _ hr.count_eq_zero hmem
  · exact not_mine_of_adjacent_zero board mines _ _ hz.count_eq_zero hmem

lemma InClosure.reach_of_zero {board : Board} {mines : List Nat} {start j : Nat}
    (h : InClosure board mines start j) (h0 : countAdjacentMines board mines j = 0) :
    ZeroReach board mines start j := by
  rcases h with h | ⟨z, hz, hmem⟩
  · exact h
  · exact ZeroReach.step hz hmem h0

lemma InClosure.of_adjacent {board : Board} {mines : List Nat} {start t k : Nat}
    (ht : ZeroReach board mines start t) (hk : k ∈ adjacentList board t) :
    InClosure board mines start k :=
  Or.inr ⟨t, ht, hk⟩

/-! ### Snapshots whose cells are consistently built from a mine list -/

/-- Cells built from the board and mine list with an arbitrary assignment of
statuses — the shape `createCells`/`addMinesToCells` produce and the data
model's consistency invariant (every `adjacentMineCount` computed from the
mine set). -/
def cellsWith (board : Board) (mines : List Nat) (f : Nat → CellStatus) : List Cell :=
  (List.range (getCellCount board)).map (fun i => Cell.make board mines i (f i))

lemma cellsWith_length (board : Board) (mines : List Nat) (f : Nat → CellStatus) :
    (cellsWith board mines f).length = getCellCount board := by
  simp [cellsWith]

lemma createCells_eq_cellsWith (board : Board) (mines : List Nat) :
    createCells board mines = cellsWith board mines (fun _ => .hidden) := rfl

lemma cellsWith_getElem? (board : Board) (mines : List Nat) (f : Nat → CellStatus)
    (j : Nat) :
    (cellsWith board mines f)[j]? =
      if j < getCellCount board then some (Cell.make board mines j (f j)) else none := by
  unfold cellsWith
  rw [List.getElem?_map]
  by_cases hj : j < getCellCount board
  · rw [List.getElem?_eq_getElem (by simpa using hj), List.getElem_range]
    simp [hj]
  · rw [List.getElem?_eq_none (by simpa using Nat.le_of_not_lt hj)]
    simp [hj]

lemma statusAt_cellsWith (board : Board) (mines : List Nat) (f : Nat → CellStatus)
    (j : Nat) :
    statusAt (cellsWith board mines f) j =
      if j < getCellCount board then some (f j) else none := by
  unfold statusAt
  rw [cellsWith_getElem?]
  by_cases hj : j < getCellCount board <;> simp [hj, Cell.make]

lemma Cell.make_withStatus (board : Board) (mines : List Nat) (i : Nat)
    (s s2 : CellStatus) : (Cell.make board mines i s).withStatus s2 = Cell.make board mines i s2 := rfl

lemma cellsWith_set (board : Board) (mines : List Nat) (f : Nat → CellStatus)
    (t : Nat) (s : CellStatus) (ht : t < getCellCount board) :
    (cellsWith board mines f).set t (Cell.make board mines t s) =
      cellsWith board mines (fun j => if j = t then s else f j) := by
  apply List.ext_getElem?
  intro j
  by_cases hjt : j = t
  · subst hjt
    rw [List.getElem?_set_self' ]
    rw [cellsWith_getElem?, cellsWith_getElem?]
    simp [ht, cellsWith_length]
  · rw [List.getElem?_set_ne (fun hh => hjt hh.symm)]
    rw [cellsWith_getElem?, cellsWith_getElem?]
    by_cases hj : j < getCellCount board <;> simp [hj, hjt]

/-! ### The cascade invariant -/

/-- During a cascade started inside the closure of `start`, the cells stay
consistently built from the mine list, and the only statuses that differ
from the original assignment `f0` are closure cells turned `revealed`. -/
def CascadeGood (board : Board) (mines : List Nat) (start : Nat) (f0 : Nat → CellStatus)
    (cs : List Cell) : Prop :=
  ∃ f : Nat → CellStatus, cs = cellsWith board mines f ∧
    ∀ j, f j = f0 j ∨ (InClosure board mines start j ∧ f j = .revealed)

/-- Every revealed region cell outside the exception set `E` (the cells whose
cascade frame is still open) already has all its neighbors revealed. -/
def NbrClosedExcept (board : Board) (mines : List Nat) (start : Nat) (cs : List Cell)
    (E : Nat → Prop) : Prop :=
  ∀ z, ZeroReach board mines start z → ¬E z → statusAt cs z = some .revealed →
    ∀ k ∈ adjacentList board z, statusAt cs k = some .revealed

/-- Revealed cells stay revealed. -/
def RevealedMono (cs cs' : List Cell) : Prop :=
  ∀ j, statusAt cs j = some .revealed → statusAt cs' j = some .revealed

lemma RevealedMono.refl (cs : List Cell) : RevealedMono cs cs := fun _ h => h

lemma RevealedMono.comp {a b c : List Cell} (h1 : RevealedMono a b) (h2 : RevealedMono b c) :
    RevealedMono a c := fun j h => h2 j (h1 j h)

/-- The cascade loop preserves the invariant and reveals every listed
closure cell, given that single reveals at this fuel do. -/
lemma cascade_fold (board : Board) (mines : List Nat) (start : Nat)
    (f0 : Nat → CellStatus) (hstart_lt : start < getCellCount board) (fuel : Nat)
    (hIH : ∀ (t : Nat) (cs : List Cell) (g : GameState) (E : Nat → Prop)
        (r : GameState × List Cell),
      CascadeGood board mines start f0 cs → NbrClosedExcept board mines start cs E →
      InClosure board mines start t →
      selectCell mines fuel t cs g = some r →
      CascadeGood board mines start f0 r.2 ∧ NbrClosedExcept board mines start r.2 E ∧
        RevealedMono cs r.2 ∧ statusAt r.2 t = some .revealed) :
    ∀ (l : List Nat) (g : GameState) (cs : List Cell) (E : Nat → Prop)
      (r : GameState × List Cell),
      (∀ k ∈ l, InClosure board mines start k) →
      CascadeGood board mines start f0 cs → NbrClosedExcept board mines start cs E →
      selectCellFold (selectCell mines fuel) l g cs = some r →
      CascadeGood board mines start f0 r.2 ∧ NbrClosedExcept board mines start r.2 E ∧
        RevealedMono cs r.2 ∧ ∀ k ∈ l, statusAt r.2 k = some .revealed := by
  intro l
  induction l with
  | nil =>
    intro g cs E r _ hGood hNCE h
    simp only [selectCellFold] at h
    cases h
    exact ⟨hGood, hNCE, RevealedMono.refl cs, fun k hk => absurd hk (List.not_mem_nil k)⟩
  | cons k rest ih =>
    intro g cs E r hcl hGood hNCE h
    have hkin : InClosure board mines start k := hcl k (List.mem_cons_self k rest)
    have hkn : k < getCellCount board := hkin.closure_lt hstart_lt
    have hcell2 : ∃ c, cs[k]? = some c := by
      obtain ⟨f, hceq, _⟩ := hGood
      exact ⟨_, by rw [hceq, cellsWith_getElem?, if_pos hkn]⟩
    obtain ⟨ck, hcell⟩ := hcell2
    simp only [selectCellFold] at h
    rw [hcell] at h
    cases hsel : selectCell mines fuel k cs g with
    | none => rw [hsel] at h; cases h
    | some r1 =>
      rw [hsel] at h
      obtain ⟨g1, cs1⟩ := r1
      obtain ⟨hGood1, hNCE1, hmono1, hrev1⟩ := hIH k cs g E (g1, cs1) hGood hNCE hkin hsel
      obtain ⟨hGoodr, hNCEr, hmonor, hrevr⟩ := ih g1 cs1 E r
        (fun k2 hk2 => hcl k2 (List.mem_cons_of_mem k hk2)) hGood1 hNCE1 h
      refine ⟨hGoodr, hNCEr, hmono1.comp hmonor, ?_⟩
      intro k2 hk2
      rcases List.mem_cons.mp hk2 with hk2 | hk2
      · subst hk2
        exact hmonor k2 hrev1
      · exact hrevr k2 hk2

/-- Main cascade lemma: a reveal at a closure cell of a consistent snapshot
preserves the invariant, only adds `revealed` statuses, closes the
neighborhood obligations of its own frame, and leaves the target revealed. -/
lemma cascade_main (board : Board) (mines : List Nat) (start : Nat)
    (f0 : Nat → CellStatus) (hstart_lt : start < getCellCount board)
    (hstart_nm : start ∉ mines)
    (hexp : ∀ j, InClosure board mines start j → f0 j ≠ .exploded) :
    ∀ (fuel : Nat) (t : Nat) (cs : List Cell) (g : GameState) (E : Nat → Prop)
      (r : GameState × List Cell),
      CascadeGood board mines start f0 cs → NbrClosedExcept board mines start cs E →
      InClosure board mines start t →
      selectCell mines fuel t cs g = some r →
      CascadeGood board mines start f0 r.2 ∧ NbrClosedExcept board mines start r.2 E ∧
        RevealedMono cs r.2 ∧ statusAt r.2 t = some .revealed := by
  intro fuel
  induction fuel with
  | zero => intro t cs g E r _ _ _ h; cases h
  | succ fuel ih =>
    intro t cs g E r hGood hNCE hIn hsel
    obtain ⟨f, hceq, hdisj⟩ := hGood
    have htn : t < getCellCount board := hIn.closure_lt hstart_lt
    have hcell : cs[t]? = some (Cell.make board mines t (f t)) := by
      rw [hceq, cellsWith_getElem?, if_pos htn]
    have hstatus_t : statusAt cs t = some (f t) := by
      rw [hceq, statusAt_cellsWith, if_pos htn]
    by_cases hrev : f t = .revealed
    · -- target already revealed: no-op
      have hdone : (Cell.make board mines t (f t)).status = .exploded ∨
          (Cell.make board mines t (f t)).status = .revealed := Or.inr hrev
      rw [selectCell_noop mines fuel t cs g _ hcell hdone] at hsel
      cases hsel
      refine ⟨⟨f, hceq, hdisj⟩, hNCE, RevealedMono.refl cs, ?_⟩
      rw [hstatus_t, hrev]
    · have hnexp : f t ≠ .exploded := by
        rcases hdisj t with h1 | ⟨_, h1⟩
        · rw [h1]; exact hexp t hIn
        · exact absurd h1 hrev
      have hdone : ¬((Cell.make board mines t (f t)).status = .exploded ∨
          (Cell.make board mines t (f t)).status = .revealed) := by
        rintro (hh | hh)
        · exact hnexp hh
        · exact hrev hh
      have hmine : t ∉ mines := hIn.not_mine hstart_nm
      have hset : cs.set t ((Cell.make board mines t (f t)).withStatus .revealed) =
          cellsWith board mines (fun j => if j = t then .revealed else f j) := by
        rw [Cell.make_withStatus, hceq, cellsWith_set board mines f t .revealed htn]
      have hGood2 : CascadeGood board mines start f0
          (cellsWith board mines (fun j => if j = t then .revealed else f j)) := by
        refine ⟨_, rfl, ?_⟩
        intro j
        by_cases hj : j = t
        · subst hj
          exact Or.inr ⟨hIn, by simp⟩
        · simpa [hj] using hdisj j
      have hmono2 : RevealedMono cs
          (cellsWith board mines (fun j => if j = t then .revealed else f j)) := by
        intro j hj
        rw [hceq, statusAt_cellsWith] at hj
        rw [statusAt_cellsWith]
        by_cases hjn : j < getCellCount board
        · rw [if_pos hjn] at hj ⊢
          by_cases hjt : j = t <;> simp_all
        · rw [if_neg hjn] at hj; cases hj
      have hstatus2_t : statusAt
          (cellsWith board mines (fun j => if j = t then .revealed else f j)) t =
          some .revealed := by
        rw [statusAt_cellsWith, if_pos htn]
        simp
      have hNCE2 : ∀ (E2 : Nat → Prop), (∀ z, E z → E2 z) → (E2 t) →
          NbrClosedExcept board mines start
            (cellsWith board mines (fun j => if j = t then .revealed else f j)) E2 := by
        intro E2 hsub hE2t z hz hnEz hrevz k hk
        have hzt : z ≠ t := fun hh => hnEz (hh ▸ hE2t)
        have hrevz' : statusAt cs z = some .revealed := by
          rw [statusAt_cellsWith] at hrevz
          rw [hceq, statusAt_cellsWith]
          by_cases hzn : z < getCellCount board
          · rw [if_pos hzn] at hrevz ⊢
            rw [if_neg hzt] at hrevz
            exact hrevz
          · rw [if_neg hzn] at hrevz; cases hrevz
        exact hmono2 k (hNCE z hz (fun hh => hnEz (hsub z hh)) hrevz' k hk)
      by_cases hzero : countAdjacentMines board mines t = 0
      · -- zero-adjacency: the cascade loop runs over the neighbors
        have hreach : ZeroReach board mines start t := hIn.reach_of_zero hzero
        have hzero' : (Cell.make board mines t (f t)).adjacentMineCount = 0 := hzero
        rw [selectCell_reveal_zero mines fuel t cs g _ hcell hdone hmine hzero'] at hsel
        have hadj : (Cell.make board mines t (f t)).adjacentIndexMatrix.filterMap id =
            adjacentList board t := rfl
        rw [hadj, hset] at hsel
        obtain ⟨hGoodr, hNCEr, hmonor, hrevall⟩ :=
          cascade_fold board mines start f0 hstart_lt fuel ih
            (adjacentList board t)
            (verdictOf (cellsWith board mines (fun j => if j = t then .revealed else f j))
              mines)
            (cellsWith board mines (fun j => if j = t then .revealed else f j))
            (fun z => E z ∨ z = t) r
            (fun k hk => InClosure.of_adjacent hreach hk)
            hGood2
            (hNCE2 (fun z => E z ∨ z = t) (fun z hz => Or.inl hz) (Or.inr rfl))
            hsel
        refine ⟨hGoodr, ?_, hmono2.comp hmonor, hmonor t hstatus2_t⟩
        intro z hz hnEz hrevz k hk
        by_cases hzt : z = t
        · subst hzt
          exact hrevall k hk
        · exact hNCEr z hz (fun hh => by
            rcases hh with hh | hh
            · exact hnEz hh
            · exact hzt hh) hrevz k hk
      · -- nonzero adjacency: single reveal
        have hzero' : (Cell.make board mines t (f t)).adjacentMineCount ≠ 0 := hzero
        rw [selectCell_reveal_nonzero mines fuel t cs g _ hcell hdone hmine hzero'] at hsel
        cases hsel
        rw [hset]
        refine ⟨hGood2, ?_, hmono2, hstatus2_t⟩
        intro z hz hnEz hrevz k hk
        have hzt : z ≠ t := fun hh => hzero (hh ▸ hz.count_eq_zero)
        have hrevz' : statusAt cs z = some .revealed := by
          rw [statusAt_cellsWith] at hrevz
          rw [hceq, statusAt_cellsWith]
          by_cases hzn : z < getCellCount board
          · rw [if_pos hzn] at hrevz ⊢
            rw [if_neg hzt] at hrevz
            exact hrevz
          · rw [if_neg hzn] at hrevz; cases hrevz
        exact hmono2 k (hNCE z hz hnEz hrevz' k hk)

/-! ### Fuel sufficiency: cell count plus one is always enough fuel -/

/-- Number of positions not yet revealed or exploded. -/
def notDoneCount (cells : List Cell) : Nat :=
  ((Finset.range cells.length).filter (fun j => ¬DoneAt cells j)).card

lemma selectCell_done_mono (mines : List Nat) :
    ∀ (fuel i : Nat) (cells : List Cell) (st : GameState) (r : GameState × List Cell),
      selectCell mines fuel i cells st = some r →
      r.2.length = cells.length ∧ ∀ j, DoneAt cells j → DoneAt r.2 j := by
  intro fuel
  induction fuel with
  | zero => intro i cells st r h; cases h
  | succ fuel ih =>
    intro i cells st r h
    rw [selectCell] at h
    cases hcell : cells[i]? with
    | none => rw [hcell] at h; cases h
    | some cell =>
      rw [hcell] at h
      dsimp only at h
      have hlt : i < cells.length := (List.getElem?_eq_some_iff.mp hcell).1
      by_cases hdone : cell.status = .exploded ∨ cell.status = .revealed
      · rw [if_pos hdone] at h
        cases h
        exact ⟨rfl, fun j hj => hj⟩
      · rw [if_neg hdone] at h
        by_cases hmine : i ∈ mines
        · rw [if_pos hmine] at h
          cases h
          refine ⟨revealMines_length cell i mines cells, ?_⟩
          intro j hj
          unfold DoneAt at hj ⊢
          rw [statusAt_revealMines]
          by_cases hjm : j ∈ mines ∧ j < cells.length
          · rw [if_pos hjm]
            by_cases hji : j = i <;> simp [hji]
          · rw [if_neg hjm]
            exact hj
        · rw [if_neg hmine] at h
          have hstep : ∀ j, DoneAt cells j →
              DoneAt (cells.set i (cell.withStatus .revealed)) j := by
            intro j hj
            unfold DoneAt at hj ⊢
            by_cases hji : j = i
            · subst hji
              rw [statusAt_set_self cells j _ hlt]
              simp [Cell.withStatus]
            · rw [statusAt_set_ne cells i j _ (fun hh => hji hh.symm)]
              exact hj
          by_cases hzero : cell.adjacentMineCount = 0
          · rw [if_pos hzero] at h
            have := selectCellFold_pres (selectCell mines fuel)
              (fun _ cs => cs.length = cells.length ∧ ∀ j, DoneAt cells j → DoneAt cs j)
              (fun k cs g g2 cs2 hP hs => by
                obtain ⟨hl2, hd2⟩ := ih k cs g (g2, cs2) hs
                exact ⟨hl2.trans hP.1, fun j hj => hd2 j (hP.2 j hj)⟩)
              _ _ _ _ _ ⟨by rw [List.length_set], hstep⟩ h
            exact ⟨this.1, this.2⟩
          · rw [if_neg hzero] at h
            cases h
            exact ⟨by rw [List.length_set], hstep⟩

lemma selectCell_notDone_mono (mines : List Nat) (fuel i : Nat) (cells : List Cell)
    (st : GameState) (r : GameState × List Cell)
    (h : selectCell mines fuel i cells st = some r) :
    notDoneCount r.2 ≤ notDoneCount cells := by
  obtain ⟨hlen, hdone⟩ := selectCell_done_mono mines fuel i cells st r h
  unfold notDoneCount
  rw [hlen]
  apply Finset.card_le_card
  intro j hj
  rw [Finset.mem_filter] at hj ⊢
  refine ⟨hj.1, ?_⟩
  intro hd
  exact hj.2 (hdone j hd)

lemma notDoneCount_set_lt (cells : List Cell) (t : Nat) (v : Cell)
    (hlt : t < cells.length) (hnd : ¬DoneAt cells t) (hd : DoneAt (cells.set t v) t) :
    notDoneCount (cells.set t v) < notDoneCount cells := by
  unfold notDoneCount
  rw [List.length_set]
  have htmem : t ∈ (Finset.range cells.length).filter (fun j => ¬DoneAt cells j) := by
    rw [Finset.mem_filter, Finset.mem_range]
    exact ⟨hlt, hnd⟩
  have hsub : (Finset.range cells.length).filter (fun j => ¬DoneAt (cells.set t v) j) ⊆
      ((Finset.range cells.length).filter (fun j => ¬DoneAt cells j)).erase t := by
    intro j hj
    rw [Finset.mem_filter, Finset.mem_range] at hj
    rw [Finset.mem_erase, Finset.mem_filter, Finset.mem_range]
    have hjt : j ≠ t := by
      intro hh
      subst hh
      exact hj.2 hd
    refine ⟨hjt, hj.1, ?_⟩
    intro hdj
    apply hj.2
    unfold DoneAt at hdj ⊢
    rw [statusAt_set_ne cells t j v (fun hh => hjt hh.symm)]
    exact hdj
  calc ((Finset.range cells.length).filter (fun j => ¬DoneAt (cells.set t v) j)).card
      ≤ (((Finset.range cells.length).filter (fun j => ¬DoneAt cells j)).erase t).card :=
        Finset.card_le_card hsub
    _ < ((Finset.range cells.length).filter (fun j => ¬DoneAt cells j)).card := by
        rw [Finset.card_erase_of_mem htmem]
        have : 0 < ((Finset.range cells.length).filter (fun j => ¬DoneAt cells j)).card :=
          Finset.card_pos.mpr ⟨t, htmem⟩
        omega

lemma selectCell_isSome (mines : List Nat) :
    ∀ (fuel i : Nat) (cells : List Cell) (st : GameState),
      i < cells.length → notDoneCount cells < fuel →
      (selectCell mines fuel i cells st).isSome = true := by
  intro fuel
  induction fuel with
  | zero => intro i cells st _ hmu; exact absurd hmu (Nat.not_lt_zero _)
  | succ fuel ih =>
    intro i cells st hi hmu
    have hcell : cells[i]? = some cells[i] := List.getElem?_eq_getElem hi
    by_cases hdone : cells[i].status = .exploded ∨ cells[i].status = .revealed
    · rw [selectCell_noop mines fuel i cells st cells[i] hcell hdone]
      rfl
    · by_cases hmine : i ∈ mines
      · rw [selectCell_mine mines fuel i cells st cells[i] hcell hdone hmine]
        rfl
      · by_cases hzero : cells[i].adjacentMineCount = 0
        · rw [selectCell_reveal_zero mines fuel i cells st cells[i] hcell hdone hmine hzero]
          have hnd : ¬DoneAt cells i := by
            unfold DoneAt statusAt
            rw [hcell]
            simp only [Option.map_some', Option.some.injEq]
            push_neg
            push_neg at hdone
            exact ⟨hdone.2, hdone.1⟩
          have hd2 : DoneAt (cells.set i (cells[i].withStatus .revealed)) i := by
            unfold DoneAt
            rw [statusAt_set_self cells i _ hi]
            simp [Cell.withStatus]
          have hmu2 : notDoneCount (cells.set i (cells[i].withStatus .revealed)) < fuel := by
            have := notDoneCount_set_lt cells i (cells[i].withStatus .revealed) hi hnd hd2
            omega
          have hfold : ∀ (l : List Nat) (g : GameState) (cs : List Cell),
              notDoneCount cs < fuel →
              (selectCellFold (selectCell mines fuel) l g cs).isSome = true := by
            intro l
            induction l with
            | nil => intro g cs _; rfl
            | cons k rest ihl =>
              intro g cs hcs
              simp only [selectCellFold]
              cases hk : cs[k]? with
              | none => exact ihl g cs hcs
              | some ck =>
                have hklt : k < cs.length := (List.getElem?_eq_some_iff.mp hk).1
                have := ih k cs g hklt hcs
                cases hsel : selectCell mines fuel k cs g with
                | none => rw [hsel] at this; cases this
                | some r1 =>
                  obtain ⟨g1, cs1⟩ := r1
                  have hle : notDoneCount cs1 ≤ notDoneCount cs :=
                    selectCell_notDone_mono mines fuel k cs g (g1, cs1) hsel
                  exact ihl g1 cs1 (lt_of_le_of_lt hle hcs)
          exact hfold _ _ _ hmu2
        · rw [selectCell_reveal_nonzero mines fuel i cells st cells[i] hcell hdone hmine
            hzero]
          rfl

/-! ### C6 -/

/-- The 1×4 board of the C6 counterexample, with its mine at index 3. -/
def blockedBoard : Board := ⟨1, 4, 1⟩

/-- Snapshot on `blockedBoard`: cell 1 — a zero-adjacency cell inside the
region of cell 0 — is already revealed, everything else hidden. -/
def blockedCells : List Cell :=
  cellsWith blockedBoard [3] (fun j => if j = 1 then .revealed else .hidden)

/-- C6 counterexample: cell 0 is a non-mine, zero-adjacency, unrevealed
cell, and cell 2 belongs to the closure of its zero region (border via the
zero cell 1); yet `Reveal(0)` leaves cell 2 hidden, because the cascade
short-circuits at the already-revealed cell 1 and never crosses it.  The
claim's "results in exactly the connected zero-adjacency region plus its
bordering non-zero cells having status revealed" fails for snapshots whose
region is already partially revealed. -/
theorem C6_counterexample :
    (0 ∉ ([3] : List Nat)) ∧
    countAdjacentMines blockedBoard [3] 0 = 0 ∧
    statusAt blockedCells 0 = some .hidden ∧
    InClosure blockedBoard [3] 0 2 ∧
    (selectCell [3] 5 0 blockedCells .active).map (fun r => statusAt r.2 2) =
      some (some .hidden) := by
  refine ⟨by decide, by decide, by decide, ?_, by decide⟩
  exact Or.inr ⟨1, ZeroReach.step (ZeroReach.base (by decide)) (by decide) (by decide),
    by decide⟩

/-- C6 (amended: no cell of the zero region of `i` is already revealed, and
no closure cell is exploded — true of every snapshot reachable by play):
revealing a non-mine cell `i` with `adjacentMineCount = 0` terminates within
`cellCount + 1` fuel, and afterwards a cell is `revealed` exactly when it
was already revealed or lies in the connected zero-adjacency region of `i`
or on its border; mine cells are untouched by the cascade. -/
theorem C6_cascade_amended :
    ∀ (board : Board) (mines : List Nat) (f0 : Nat → CellStatus) (start : Nat)
      (g : GameState),
      start < getCellCount board →
      start ∉ mines →
      countAdjacentMines board mines start = 0 →
      (∀ j, ZeroReach board mines start j → f0 j ≠ .revealed) →
      (∀ j, InClosure board mines start j → f0 j ≠ .exploded) →
      ∃ r : GameState × List Cell,
        selectCell mines (getCellCount board + 1) start (cellsWith board mines f0) g =
          some r ∧
        (∀ j, j < getCellCount board →
          (statusAt r.2 j = some .revealed ↔
            (InClosure board mines start j ∨ f0 j = .revealed))) ∧
        (∀ j, j ∈ mines → r.2[j]? = (cellsWith board mines f0)[j]?) := by
  intro board mines f0 start g hlt hnm hzero hreg hexp
  have hlen : (cellsWith board mines f0).length = getCellCount board :=
    cellsWith_length board mines f0
  have hmu : notDoneCount (cellsWith board mines f0) < getCellCount board + 1 := by
    have h1 : notDoneCount (cellsWith board mines f0) ≤ (cellsWith board mines f0).length := by
      unfold notDoneCount
      calc ((Finset.range (cellsWith board mines f0).length).filter
            (fun j => ¬DoneAt (cellsWith board mines f0) j)).card
          ≤ (Finset.range (cellsWith board mines f0).length).card :=
            Finset.card_filter_le _ _
        _ = (cellsWith board mines f0).length := Finset.card_range _
    omega
  have hsome := selectCell_isSome mines (getCellCount board + 1) start
    (cellsWith board mines f0) g (by rw [hlen]; exact hlt) hmu
  obtain ⟨r, hr⟩ := Option.isSome_iff_exists.mp hsome
  have hGood0 : CascadeGood board mines start f0 (cellsWith board mines f0) :=
    ⟨f0, rfl, fun j => Or.inl rfl⟩
  have hNCE0 : NbrClosedExcept board mines start (cellsWith board mines f0)
      (fun _ => False) := by
    intro z hz _ hrevz k hk
    exfalso
    rw [statusAt_cellsWith] at hrevz
    by_cases hzn : z < getCellCount board
    · rw [if_pos hzn] at hrevz
      exact hreg z hz (by injection hrevz)
    · rw [if_neg hzn] at hrevz
      cases hrevz
  have hIn0 : InClosure board mines start start := Or.inl (ZeroReach.base hzero)
  obtain ⟨hGoodr, hNCEr, hmonor, hrevstart⟩ :=
    cascade_main board mines start f0 hlt hnm hexp (getCellCount board + 1) start
      (cellsWith board mines f0) g (fun _ => False) r hGood0 hNCE0 hIn0 hr
  have hregion : ∀ z, ZeroReach board mines start z → statusAt r.2 z = some .revealed := by
    intro z hz
    induction hz with
    | base _ => exact hrevstart
    | step hj hmem _ ihz => exact hNCEr _ hj (fun hh => hh) ihz _ hmem
  have hclosure : ∀ j, InClosure board mines start j →
      statusAt r.2 j = some .revealed := by
    intro j hj
    rcases hj with hj | ⟨z, hz, hmem⟩
    · exact hregion j hj
    · exact hNCEr z hz (fun hh => hh) (hregion z hz) j hmem
  obtain ⟨f, hfeq, hfdisj⟩ := hGoodr
  refine ⟨r, hr, ?_, ?_⟩
  · intro j hjn
    constructor
    · intro hrev
      rw [hfeq, statusAt_cellsWith, if_pos hjn] at hrev
      have hfj : f j = .revealed := by injection hrev
      rcases hfdisj j with h1 | ⟨h1, _⟩
      · exact Or.inr (h1 ▸ hfj)
      · exact Or.inl h1
    · intro hor
      rcases hor with hor | hor
      · exact hclosure j hor
      · exact hmonor j (by rw [statusAt_cellsWith, if_pos hjn, hor])
  · intro j hjm
    have hnotc : ¬InClosure board mines start j := fun hc => (hc.not_mine hnm) hjm
    have hfj : f j = f0 j := by
      rcases hfdisj j with h1 | ⟨h1, _⟩
      · exact h1
      · exact absurd h1 hnotc
    rw [hfeq, cellsWith_getElem?, cellsWith_getElem?]
    by_cases hjn : j < getCellCount board <;> simp [hjn, hfj]

theorem C6_cascade_amended_witness :
    (0 < getCellCount ⟨1, 2, 0⟩) ∧
    ∃ r : GameState × List Cell,
      selectCell [] (getCellCount ⟨1, 2, 0⟩ + 1) 0
          (cellsWith ⟨1, 2, 0⟩ [] (fun _ => .hidden)) .idle = some r ∧
      (∀ j, j < getCellCount ⟨1, 2, 0⟩ →
        (statusAt r.2 j = some .revealed ↔
          (InClosure ⟨1, 2, 0⟩ [] 0 j ∨ (fun _ => CellStatus.hidden) j = .revealed))) ∧
      (∀ j, j ∈ ([] : List Nat) →
        r.2[j]? = (cellsWith ⟨1, 2, 0⟩ [] (fun _ => .hidden))[j]?) :=
  ⟨by decide,
   C6_cascade_amended ⟨1, 2, 0⟩ [] (fun _ => .hidden) 0 .idle (by decide) (by decide)
     (by decide) (fun _ _ h => CellStatus.noConfusion h)
     (fun _ _ h => CellStatus.noConfusion h)⟩
